import Mathlib

/-!
Verification of the Harris-Matrix layout and orthogonal edge-routing engine
(`src/utils/graphLayout.ts` together with the data model of `src/types.ts`).

The embedding is shallow and executable:
* JavaScript `Map` objects are insertion-ordered association lists (`JsMap`);
  `set` of an existing key updates the value in place, `set` of a new key
  appends, and iteration (`forEach`) follows insertion order, exactly as in
  the ECMAScript specification.
* JavaScript numbers are embedded as unreduced integer fractions (`Q`).
  Every numerator/denominator operation used by the source (addition,
  subtraction, multiplication, division, comparison, absolute value) is exact
  on the values the engine manipulates, and all denominators produced by the
  engine are positive, so the cross-multiplication comparisons agree with the
  rational order.
* `String.prototype.localeCompare` is modelled as code-point comparison
  (the ids handled by the engine are plain ASCII).
* The recursive rank computation of the source has no explicit bound; the
  embedding gives it fuel, and fuel sufficiency is proved separately.
* SVG path strings are modelled as lists of drawing commands (`PathCmd`)
  instead of their string rendering.
-/

namespace GraphLayout

/-- Rational numbers as unreduced fractions with exact integer arithmetic.
All denominators constructed by the engine are positive. -/
structure Q where
  num : Int
  den : Int
deriving DecidableEq, Repr

instance : OfNat Q n := ⟨⟨n, 1⟩⟩

instance : Add Q := ⟨fun a b => ⟨a.num * b.den + b.num * a.den, a.den * b.den⟩⟩

instance : Sub Q := ⟨fun a b => ⟨a.num * b.den - b.num * a.den, a.den * b.den⟩⟩

instance : Mul Q := ⟨fun a b => ⟨a.num * b.num, a.den * b.den⟩⟩

instance : Div Q := ⟨fun a b => ⟨a.num * b.den, a.den * b.num⟩⟩

def qLe (a b : Q) : Bool := a.num * b.den ≤ b.num * a.den

def qLt (a b : Q) : Bool := a.num * b.den < b.num * a.den

/-- Value equality of two fractions (the embedding of `===` on numbers). -/
def qEqv (a b : Q) : Bool := a.num * b.den = b.num * a.den

/-- `Math.abs`, valid for the positive denominators the engine produces. -/
def qAbs (a : Q) : Q := ⟨a.num.natAbs, a.den⟩

def qMax (a b : Q) : Q := if qLe a b then b else a

def qMin (a b : Q) : Q := if qLe a b then a else b

def qOfNat (n : Nat) : Q := ⟨n, 1⟩

/-- Insertion-ordered association list modelling a JavaScript `Map`. -/
abbrev JsMap (κ α : Type) : Type := List (κ × α)

def mapEmpty {κ α : Type} : JsMap κ α := []

def mapGet {κ α : Type} [DecidableEq κ] : JsMap κ α → κ → Option α
  | [], _ => none
  | (k', v') :: rest, k => if k' = k then some v' else mapGet rest k

/-- `Map.prototype.set`: update in place if the key exists, else append. -/
def mapSet {κ α : Type} [DecidableEq κ] : JsMap κ α → κ → α → JsMap κ α
  | [], k, v => [(k, v)]
  | (k', v') :: rest, k, v =>
      if k' = k then (k, v) :: rest else (k', v') :: mapSet rest k v

def mapHas {κ α : Type} [DecidableEq κ] (m : JsMap κ α) (k : κ) : Bool :=
  (mapGet m k).isSome

def mapGetD {κ α : Type} [DecidableEq κ] (m : JsMap κ α) (k : κ) (d : α) : α :=
  (mapGet m k).getD d

def mapKeys {κ α : Type} (m : JsMap κ α) : List κ := m.map (·.1)

/-- Stable insertion sort; `lt x y` means `x` must come strictly before `y`.
Matches the (stable) `Array.prototype.sort` on the comparators the source
uses. -/
def insertBy {α : Type} (lt : α → α → Bool) (x : α) : List α → List α
  | [] => [x]
  | y :: ys => if lt y x then y :: insertBy lt x ys else x :: y :: ys

def sortBy {α : Type} (lt : α → α → Bool) (l : List α) : List α :=
  l.foldr (insertBy lt) []

/-- Code-point comparison of two strings (model of `localeCompare < 0`). -/
def charsLt : List Char → List Char → Bool
  | [], [] => false
  | [], _ :: _ => true
  | _ :: _, [] => false
  | c :: cs, d :: ds =>
      if c.toNat < d.toNat then true
      else if d.toNat < c.toNat then false
      else charsLt cs ds

def strLt (a b : String) : Bool := charsLt a.toList b.toList

/-! ## Data model (`src/types.ts`) -/

inductive UnitType where
  | LAYER | ASH_PIT | TOMB | HOUSE | KILN | WELL | WALL | OTHER
deriving DecidableEq, Repr

inductive RelationType where
  | CUTS | OVERLAYS | SAME_AS | PART_OF
deriving DecidableEq, Repr

structure ArchaeologicalUnit where
  id : String
  type : UnitType
  description : Option String := none
  openingLayerId : Option String := none
deriving DecidableEq, Repr

structure StratigraphicRelation where
  id : String
  sourceId : String
  targetId : String
  type : RelationType
deriving DecidableEq, Repr

structure GraphNode where
  id : String
  type : UnitType
  description : Option String := none
  openingLayerId : Option String := none
  x : Q
  y : Q
  rank : Nat
deriving DecidableEq, Repr

structure GraphLink where
  id : String
  source : GraphNode
  target : GraphNode
  type : RelationType
deriving DecidableEq, Repr

/-! ## Constants of `graphLayout.ts` -/

def UNIT_WIDTH : Q := 60

def UNIT_HEIGHT : Q := 28

def LAYER_RADIUS : Q := 18

def X_SPACING : Q := 90

def Y_SPACING : Q := 80

def BRIDGE_RADIUS : Q := 6

def DEFAULT_GAP : Q := 20

inductive Side where
  | top | bottom | left | right
deriving DecidableEq, Repr

structure LinkPortConfig where
  sourceSide : Option Side := none
  targetSide : Option Side := none
deriving DecidableEq, Repr

/-- Adjacency mapping: node id to ordered list of target ids. -/
abbrev AdjMap : Type := JsMap String (List String)

/-- `v ∈ adj.get(u)` as a Bool; an absent key has no outgoing edges. -/
def hasEdge (adj : AdjMap) (u v : String) : Bool :=
  (mapGetD adj u []).contains v

/-! ## Transitive reduction (`performTransitiveReduction`, `isReachable`) -/

/-- Depth-first search of `isReachable`: explicit stack popped from the
front (the JS code pushes neighbours in order and pops the last one, which
is the same as prepending the reversed neighbour list to a front-popped
stack), with a visited set.  The source loop terminates because every
iteration either discards a visited node or marks a new one; the embedding
carries fuel, with `isReachableFuel` always sufficient (each iteration
consumes one unit and the potential argument bounds the iteration count). -/
def dfsStep (adj : AdjMap) (goal : String) : Nat → List String → List String → Bool
  | 0, _, _ => false
  | _ + 1, [], _ => false
  | fuel + 1, curr :: stack, visited =>
      if curr ∈ visited then dfsStep adj goal fuel stack visited
      else
        let neighbors := mapGetD adj curr []
        if goal ∈ neighbors then true
        else dfsStep adj goal fuel (neighbors.reverse ++ stack) (curr :: visited)

def isReachableFuel (adj : AdjMap) : Nat :=
  2 + (adj.map (fun kl => 1 + kl.2.length)).sum

def isReachable (start goal : String) (adj : AdjMap) : Bool :=
  if start = goal then true
  else dfsStep adj goal (isReachableFuel adj) [start] []

/-- One step of the inner loop of `performTransitiveReduction`: `children`
is the snapshot of `i`'s child list taken when the outer iteration for `i`
began, `j` the direct child being examined. -/
def reduceEdgeStep (children : List String) (i : String) (acc : AdjMap) (j : String) : AdjMap :=
  if children.any (fun k => k ≠ j && isReachable k j acc) then
    mapSet acc i ((mapGetD acc i []).filter (· ≠ j))
  else acc

def reduceNode (acc : AdjMap) (i : String) : AdjMap :=
  let children := mapGetD acc i []
  children.foldl (reduceEdgeStep children i) acc

def performTransitiveReduction (nodes : List String) (adj : AdjMap) : AdjMap :=
  let reducedAdj : AdjMap := nodes.foldl (fun m n => mapSet m n (mapGetD adj n [])) mapEmpty
  nodes.foldl reduceNode reducedAdj

/-! ## Layer id sort key (`getLayerSortValue`) -/

def digitsToNat (cs : List Char) : Nat :=
  cs.foldl (fun n c => n * 10 + (c.toNat - 48)) 0

/-- `^(\d+)([a-z]*)$`: leading decimal digits, then lowercase letters;
no match yields 99999. -/
def getLayerSortValue (id : String) : Nat :=
  let cs := id.toList
  let digits := cs.takeWhile (·.isDigit)
  let suffix := cs.dropWhile (·.isDigit)
  if digits.isEmpty || !(suffix.all fun c => 'a' ≤ c && c ≤ 'z') then 99999
  else
    let num := digitsToNat digits
    let suffixVal := match suffix with
      | [] => 0
      | c :: _ => c.toNat - 96
    num * 100 + suffixVal

/-! ## Graph building inside `calculateLayout` -/

def buildNodeMap (units : List ArchaeologicalUnit) : JsMap String GraphNode :=
  units.foldl
    (fun m u =>
      mapSet m u.id
        { id := u.id, type := u.type, description := u.description,
          openingLayerId := u.openingLayerId, x := 0, y := 0, rank := 0 })
    mapEmpty

/-- `addEdge` closure of `calculateLayout` (the accompanying `reverseAdj`
map of the source is written but never read, and is omitted). -/
def addEdge (nm : JsMap String GraphNode) (adj : AdjMap) (u v : String) : AdjMap :=
  if !(mapHas nm u) || !(mapHas nm v) then adj
  else
    let cur := mapGetD adj u []
    if cur.contains v then adj else mapSet adj u (cur ++ [v])

/-- Step 1 of `calculateLayout`: explicit relations, implicit
opening-layer edges, then the sequential layer chain. -/
def buildAdjacency (units : List ArchaeologicalUnit)
    (relations : List StratigraphicRelation) : AdjMap :=
  let nm := buildNodeMap units
  let a1 := relations.foldl (fun a r => addEdge nm a r.sourceId r.targetId) mapEmpty
  let a2 := units.foldl
    (fun a u =>
      match u.openingLayerId with
      | some lid => if lid ≠ "" && mapHas nm lid then addEdge nm a lid u.id else a
      | none => a)
    a1
  let allLayers := sortBy (fun a b => getLayerSortValue a.id < getLayerSortValue b.id)
    (units.filter (fun u => u.type = UnitType.LAYER))
  (allLayers.zip allLayers.tail).foldl (fun a p => addEdge nm a p.1.id p.2.id) a2

def layoutNodeIds (units : List ArchaeologicalUnit) : List String :=
  mapKeys (buildNodeMap units)

def layoutAdj (units : List ArchaeologicalUnit)
    (relations : List StratigraphicRelation) : AdjMap :=
  performTransitiveReduction (layoutNodeIds units) (buildAdjacency units relations)

/-- Pre-calculation: which layers have at least one non-LAYER child in the
raw (pre-reduction) adjacency. -/
def layerHasFeaturesMap (units : List ArchaeologicalUnit)
    (relations : List StratigraphicRelation) : JsMap String Bool :=
  let nm := buildNodeMap units
  let rawAdj := buildAdjacency units relations
  (units.filter (fun u => u.type = UnitType.LAYER)).foldl
    (fun m layer =>
      let children := mapGetD rawAdj layer.id []
      let hasFeature := children.any fun cid =>
        match mapGet nm cid with
        | some childNode => childNode.type ≠ UnitType.LAYER
        | none => false
      mapSet m layer.id hasFeature)
    mapEmpty

def getEdgeWeight (nm : JsMap String GraphNode) (layerHasFeatures : JsMap String Bool)
    (parentId childId : String) : Nat :=
  let pType := (mapGet nm parentId).map (·.type)
  let cType := (mapGet nm childId).map (·.type)
  if pType = some UnitType.LAYER && cType = some UnitType.LAYER &&
      mapGetD layerHasFeatures parentId false then 2
  else 1

/-! ## Rank assignment (`calcRank`) -/

/-- Parents of `nodeId`: keys of `adj` whose child list contains it, in map
iteration order. -/
def parentsOf (adj : AdjMap) (nodeId : String) : List String :=
  adj.filterMap (fun kl => if kl.2.contains nodeId then some kl.1 else none)

/-- `calcRank` of the source: memoised longest path from the roots with a
per-call visited path (a revisit contributes 0).  The source recursion's
depth is bounded by the number of distinct node ids; the embedding carries
fuel and fuel sufficiency is proved separately. -/
def calcRank (adj : AdjMap) (weight : String → String → Nat) :
    Nat → String → List String → JsMap String Nat → Nat × JsMap String Nat
  | 0, _, _, memo => (0, memo)
  | fuel + 1, nodeId, visited, memo =>
      if nodeId ∈ visited then (0, memo)
      else
        match mapGet memo nodeId with
        | some r => (r, memo)
        | none =>
            let parents := parentsOf adj nodeId
            if parents.isEmpty then (0, mapSet memo nodeId 0)
            else
              let res := parents.foldl
                (fun (acc : Nat × JsMap String Nat) p =>
                  let w := weight p nodeId
                  let pr := calcRank adj weight fuel p (nodeId :: visited) acc.2
                  (Nat.max acc.1 (pr.1 + w), pr.2))
                (0, memo)
              (res.1, mapSet res.2 nodeId res.1)

/-- The `units.forEach` loop assigning ranks, threading the shared memo
table; returns the per-unit rank map. -/
def calcRanksWith (fuel : Nat) (adj : AdjMap) (weight : String → String → Nat)
    (units : List ArchaeologicalUnit) : JsMap String Nat × JsMap String Nat :=
  units.foldl
    (fun (acc : JsMap String Nat × JsMap String Nat) u =>
      let r := calcRank adj weight fuel u.id [] acc.2
      (mapSet acc.1 u.id r.1, r.2))
    (mapEmpty, mapEmpty)

def layoutRanks (units : List ArchaeologicalUnit)
    (relations : List StratigraphicRelation) : JsMap String Nat :=
  let nm := buildNodeMap units
  (calcRanksWith (units.length + 1) (layoutAdj units relations)
    (getEdgeWeight nm (layerHasFeaturesMap units relations)) units).1

/-- Fuel sufficient for `calcRank` at node `n` with visited path `visited`. -/
def calcRankMeasure (adj : AdjMap) (n : String) (visited : List String) : Nat :=
  ((mapKeys adj).filter (fun k => k ∉ visited)).length +
    (if n ∈ mapKeys adj then 1 else 2)

/-- Termination potential of the `isReachable` search loop. -/
def dfsPotential (adj : AdjMap) (stack visited : List String) : Nat :=
  stack.length +
    ((adj.filter (fun kl => kl.1 ∉ visited)).map (fun kl => 1 + kl.2.length)).sum

/-! ## Coordinate assignment (step 4 of `calculateLayout`) -/

/-- `Math.max(...)` over a list; `none` models the `-Infinity` result on an
empty argument list. -/
def jsMaxList (l : List Q) : Option Q :=
  l.foldl
    (fun acc v =>
      match acc with
      | none => some v
      | some a => some (qMax a v))
    none

def layoutRankedNodeMap (units : List ArchaeologicalUnit)
    (relations : List StratigraphicRelation) : JsMap String GraphNode :=
  let ranks := layoutRanks units relations
  (buildNodeMap units).map fun kn => (kn.1, { kn.2 with rank := mapGetD ranks kn.1 0 })

def layoutMaxRank (units : List ArchaeologicalUnit)
    (relations : List StratigraphicRelation) : Option Q :=
  jsMaxList ((layoutRankedNodeMap units relations).map fun kn => qOfNat kn.2.rank)

/-- `Array.from({length: maxRank + 1})`: number of rank tiers (0 when the
length expression is `-Infinity`, by `ToLength` clamping). -/
def layoutNumGroups (units : List ArchaeologicalUnit)
    (relations : List StratigraphicRelation) : Nat :=
  match layoutMaxRank units relations with
  | none => 0
  | some q => q.num.toNat + 1

def layoutRankGroups (units : List ArchaeologicalUnit)
    (relations : List StratigraphicRelation) : List (List GraphNode) :=
  (List.range (layoutNumGroups units relations)).map fun r =>
    (layoutRankedNodeMap units relations).filterMap fun kn =>
      if kn.2.rank = r then some kn.2 else none

/-- `'left' | 'right' | 'center'` values of the `sideAssignment` map. -/
inductive SidePos where
  | left | right | center
deriving DecidableEq, Repr

def sideAssignInit (units : List ArchaeologicalUnit) : JsMap String SidePos :=
  units.foldl
    (fun m u => if u.type = UnitType.LAYER then mapSet m u.id SidePos.center else m)
    mapEmpty

/-- SPECIAL RULE: single feature child of a layer with no layer children is
centered. -/
def sideAssignCentering (units : List ArchaeologicalUnit)
    (relations : List StratigraphicRelation)
    (m0 : JsMap String SidePos) : JsMap String SidePos :=
  let nm := buildNodeMap units
  let adj := layoutAdj units relations
  (units.filter (fun u => u.type = UnitType.LAYER)).foldl
    (fun m layer =>
      let children := mapGetD adj layer.id []
      let featureChildren := children.filter fun cid =>
        match mapGet nm cid with
        | some childNode => childNode.type ≠ UnitType.LAYER
        | none => false
      let hasLayerChild := children.any fun cid =>
        (mapGet nm cid).map (·.type) = some UnitType.LAYER
      if featureChildren.length = 1 && !hasLayerChild then
        match featureChildren with
        | childId :: _ => if mapHas m childId then m else mapSet m childId SidePos.center
        | [] => m
      else m)
    m0

def sideBalance (m : JsMap String SidePos) (parents : List String) : Int :=
  parents.foldl
    (fun b pid =>
      match mapGet m pid with
      | some SidePos.left => b - 1
      | some SidePos.right => b + 1
      | _ => b)
    0

def sideAssignPropagate (adj : AdjMap) (groups : List (List GraphNode))
    (m0 : JsMap String SidePos) : JsMap String SidePos :=
  groups.foldl
    (fun m nodesInRank =>
      nodesInRank.foldl
        (fun m n =>
          if mapHas m n.id then m
          else
            let parents := parentsOf adj n.id
            let balance := sideBalance m parents
            if balance < 0 then mapSet m n.id SidePos.left
            else if balance > 0 then mapSet m n.id SidePos.right
            else
              let currentLeft := (nodesInRank.filter fun node =>
                mapGet m node.id = some SidePos.left).length
              let currentRight := (nodesInRank.filter fun node =>
                mapGet m node.id = some SidePos.right).length
              mapSet m n.id (if currentLeft ≤ currentRight then SidePos.left else SidePos.right))
        m)
    m0

def layoutSides (units : List ArchaeologicalUnit)
    (relations : List StratigraphicRelation) : JsMap String SidePos :=
  sideAssignPropagate (layoutAdj units relations) (layoutRankGroups units relations)
    (sideAssignCentering units relations (sideAssignInit units))

/-- X/Y placement of one rank tier. -/
def placeRank (width : Q) (sides : JsMap String SidePos)
    (cm : JsMap String (Q × Q)) (tier : Nat × List GraphNode) : JsMap String (Q × Q) :=
  let rankY : Q := (80 : Q) + qOfNat tier.1 * Y_SPACING
  let canvasCenterX := width / 2
  let nodesInRank := tier.2
  let centerNodes := nodesInRank.filter fun n => mapGet sides n.id = some SidePos.center
  let leftNodes := sortBy (fun a b => strLt b.id a.id)
    (nodesInRank.filter fun n => mapGet sides n.id = some SidePos.left)
  let rightNodes := sortBy (fun a b => strLt a.id b.id)
    (nodesInRank.filter fun n => mapGet sides n.id = some SidePos.right)
  let cm1 := centerNodes.foldl (fun cm n => mapSet cm n.id (canvasCenterX, rankY)) cm
  let cm2 := leftNodes.enum.foldl
    (fun cm p => mapSet cm p.2.id (canvasCenterX - X_SPACING * qOfNat (p.1 + 1), rankY)) cm1
  rightNodes.enum.foldl
    (fun cm p => mapSet cm p.2.id (canvasCenterX + X_SPACING * qOfNat (p.1 + 1), rankY)) cm2

def layoutCoords (units : List ArchaeologicalUnit)
    (relations : List StratigraphicRelation) (width : Q) : JsMap String (Q × Q) :=
  (layoutRankGroups units relations).enum.foldl
    (placeRank width (layoutSides units relations)) mapEmpty

def layoutFinalNodeMap (units : List ArchaeologicalUnit)
    (relations : List StratigraphicRelation) (width : Q) : JsMap String GraphNode :=
  let coords := layoutCoords units relations width
  (layoutRankedNodeMap units relations).map fun kn =>
    let xy := mapGetD coords kn.1 (0, 0)
    (kn.1, { kn.2 with x := xy.1, y := xy.2 })

/-! ## Final links (step 5 of `calculateLayout`) -/

def mkLinkId (orig : Option StratigraphicRelation) (sourceId targetId : String) : String :=
  match orig with
  | some r => if r.id = "" then sourceId ++ "-" ++ targetId else r.id
  | none => sourceId ++ "-" ++ targetId

/-- Body of the `adj.forEach` loop pushing the final links. -/
def buildLinksStep (nm : JsMap String GraphNode)
    (relations : List StratigraphicRelation) (acc : List GraphLink)
    (kl : String × List String) : List GraphLink :=
  match mapGet nm kl.1 with
  | none => acc
  | some source =>
      acc ++ kl.2.filterMap fun targetId =>
        match mapGet nm targetId with
        | none => none
        | some target =>
            let originalRelation := relations.find? fun r =>
              r.sourceId = kl.1 && r.targetId = targetId
            some { id := mkLinkId originalRelation kl.1 targetId,
                   source := source, target := target,
                   type := if source.type = UnitType.LAYER then RelationType.OVERLAYS
                           else RelationType.CUTS }

def buildLinks (nm : JsMap String GraphNode)
    (relations : List StratigraphicRelation) (adj : AdjMap) : List GraphLink :=
  adj.foldl (buildLinksStep nm relations) []

structure LayoutResult where
  nodes : List GraphNode
  links : List GraphLink
  /-- `maxRank + 1`; `none` models the `-Infinity` produced for an empty
  unit set. -/
  layers : Option Q
deriving DecidableEq, Repr

def calculateLayout (units : List ArchaeologicalUnit)
    (relations : List StratigraphicRelation) (width height : Q) : LayoutResult :=
  let fnm := layoutFinalNodeMap units relations width
  { nodes := fnm.map (·.2),
    links := buildLinks fnm relations (layoutAdj units relations),
    layers := (layoutMaxRank units relations).map (· + 1) }

/-! ## Orthogonal routing with bridges (`calculateRoutes`) -/

structure Point where
  x : Q
  y : Q
deriving DecidableEq, Repr

inductive RouteType where
  | VerticalStack | SideBracket | Mixed
deriving DecidableEq, Repr

/-- SVG path drawing commands; the source's arcs always carry the constant
`0 0 1` rotation/large-arc/sweep flags, left implicit here. -/
inductive PathCmd where
  | move (x y : Q)
  | line (x y : Q)
  | arc (rx ry : Q) (x y : Q)
deriving DecidableEq, Repr

structure RouteResult where
  path : List PathCmd
  routeType : RouteType
  controlPoint : Q
deriving DecidableEq, Repr

def qTenth : Q := ⟨1, 10⟩

def nodeW (n : GraphNode) : Q :=
  if n.type = UnitType.LAYER then LAYER_RADIUS * 2 else UNIT_WIDTH

def nodeH (n : GraphNode) : Q :=
  if n.type = UnitType.LAYER then LAYER_RADIUS * 2 else UNIT_HEIGHT

def anchorPoint (n : GraphNode) : Side → Point
  | Side.top => ⟨n.x, n.y - nodeH n / 2⟩
  | Side.bottom => ⟨n.x, n.y + nodeH n / 2⟩
  | Side.left => ⟨n.x - nodeW n / 2, n.y⟩
  | Side.right => ⟨n.x + nodeW n / 2, n.y⟩

def linkMeanX (nodes : List GraphNode) : Q :=
  if nodes.length > 0 then (nodes.foldl (fun s n => s + n.x) 0) / qOfNat nodes.length
  else 0

/-- The node centre used by the side heuristics. -/
def anchorPointCenter (n : GraphNode) : Point := ⟨n.x, n.y⟩

/-- Heuristic default exit/entry sides of a link. -/
def defaultSides (meanX : Q) (link : GraphLink) : Side × Side :=
  let sc := anchorPointCenter link.source
  let tc := anchorPointCenter link.target
  let isVerticalAligned := qLt (qAbs (tc.x - sc.x)) 40
  if link.type = RelationType.CUTS && isVerticalAligned then
    let preferredSide := if qLe sc.x meanX then Side.left else Side.right
    (preferredSide, preferredSide)
  else
    let defaultSource :=
      if link.source.type = UnitType.LAYER then Side.bottom
      else if qLt tc.y sc.y then Side.top
      else if qLt 100 (qAbs (tc.x - sc.x)) then
        (if qLt sc.x tc.x then Side.right else Side.left)
      else Side.bottom
    let defaultTarget :=
      if qLt (tc.y + 30) sc.y then Side.bottom
      else if qLt 100 (qAbs (tc.x - sc.x)) then
        (if qLt sc.x tc.x then Side.left else Side.right)
      else Side.top
    (defaultSource, defaultTarget)

def chosenSides (meanX : Q) (ports : JsMap String LinkPortConfig)
    (link : GraphLink) : Side × Side :=
  let config := mapGetD ports link.id {}
  let d := defaultSides meanX link
  (config.sourceSide.getD d.1, config.targetSide.getD d.2)

/-- Stub endpoint: the anchor displaced by `DEFAULT_GAP` away from the node. -/
def stubPoint (p : Point) : Side → Point
  | Side.top => ⟨p.x, p.y - DEFAULT_GAP⟩
  | Side.bottom => ⟨p.x, p.y + DEFAULT_GAP⟩
  | Side.left => ⟨p.x - DEFAULT_GAP, p.y⟩
  | Side.right => ⟨p.x + DEFAULT_GAP, p.y⟩

def isVerticalSide (s : Side) : Bool :=
  s = Side.top || s = Side.bottom

/-- Degenerate-point removal: keep a point iff it is farther than 0.1 from
its predecessor in the original array (the source filters on the original
indices). -/
def cleanPoints : List Point → List Point
  | [] => []
  | p :: rest =>
      p :: ((p :: rest).zip rest).filterMap fun pq =>
        if qLt qTenth (qAbs (pq.2.x - pq.1.x)) || qLt qTenth (qAbs (pq.2.y - pq.1.y)) then
          some pq.2
        else none

/-- The per-link polyline, route classification and control point. -/
def routeLink (meanX : Q) (offsets : JsMap String Q)
    (ports : JsMap String LinkPortConfig) (link : GraphLink) :
    List Point × RouteType × Q :=
  let sides := chosenSides meanX ports link
  let sSide := sides.1
  let tSide := sides.2
  let start := anchorPoint link.source sSide
  let stop := anchorPoint link.target tSide
  let exitPt := stubPoint start sSide
  let entryPt := stubPoint stop tSide
  let isVerticalExit := isVerticalSide sSide
  let isVerticalEntry := isVerticalSide tSide
  let core : List Point × RouteType × Q :=
    if isVerticalExit && isVerticalEntry then
      let midY := if mapHas offsets link.id then mapGetD offsets link.id 0
                  else (exitPt.y + entryPt.y) / 2
      ([⟨exitPt.x, midY⟩, ⟨entryPt.x, midY⟩], RouteType.VerticalStack, midY)
    else if !isVerticalExit && !isVerticalEntry then
      let midX := if mapHas offsets link.id then mapGetD offsets link.id 0
                  else if sSide = Side.left then qMin exitPt.x entryPt.x - 20
                  else qMax exitPt.x entryPt.x + 20
      ([⟨midX, exitPt.y⟩, ⟨midX, entryPt.y⟩], RouteType.SideBracket, midX)
    else if isVerticalExit && !isVerticalEntry then
      ([⟨exitPt.x, entryPt.y⟩], RouteType.Mixed, 0)
    else
      ([⟨entryPt.x, exitPt.y⟩], RouteType.Mixed, 0)
  let routeType := core.2.1
  let points1 := [start, exitPt] ++ core.1
  let last := points1.getLastD start
  let points2 :=
    if !(qEqv last.x entryPt.x) && !(qEqv last.y entryPt.y) then
      points1 ++ [⟨entryPt.x, last.y⟩]
    else if !(qEqv last.x entryPt.x) || !(qEqv last.y entryPt.y) then
      -- the source re-tests the same conjunction inside this branch, so it
      -- can never append here
      (if routeType = RouteType.Mixed then
        (if !(qEqv last.x entryPt.x) && !(qEqv last.y entryPt.y) then
          points1 ++ [⟨entryPt.x, last.y⟩]
        else points1)
      else points1)
    else points1
  (cleanPoints (points2 ++ [entryPt, stop]), routeType, core.2.2)

/-! ### Bridge computation -/

structure VSeg where
  x : Q
  y1 : Q
  y2 : Q
  linkIdx : Nat
  segIdx : Nat
deriving Repr

structure HSeg where
  y : Q
  x1 : Q
  x2 : Q
  linkIdx : Nat
deriving Repr

def collectSegments (polylines : List (List Point)) : List VSeg × List HSeg :=
  polylines.enum.foldl
    (fun acc lp =>
      let linkIdx := lp.1
      (lp.2.zip lp.2.tail).enum.foldl
        (fun acc2 ip =>
          let p1 := ip.2.1
          let p2 := ip.2.2
          if qLt (qAbs (p1.x - p2.x)) qTenth then
            (acc2.1 ++ [⟨p1.x, qMin p1.y p2.y, qMax p1.y p2.y, linkIdx, ip.1⟩], acc2.2)
          else
            (acc2.1, acc2.2 ++ [⟨p1.y, qMin p1.x p2.x, qMax p1.x p2.x, linkIdx⟩]))
        acc)
    ([], [])

/-- Record, for every vertical segment, the y-coordinates of the horizontal
segments of *other* links that it crosses (with the bridge-radius margin). -/
def computeJumps (vSegments : List VSeg) (hSegments : List HSeg) :
    JsMap Nat (JsMap Nat (List Q)) :=
  vSegments.foldl
    (fun jumps v =>
      hSegments.foldl
        (fun jumps h =>
          if v.linkIdx = h.linkIdx then jumps
          else if qLt (h.x1 + BRIDGE_RADIUS) v.x && qLt v.x (h.x2 - BRIDGE_RADIUS) &&
              qLt (v.y1 + BRIDGE_RADIUS) h.y && qLt h.y (v.y2 - BRIDGE_RADIUS) then
            let segMap := mapGetD jumps v.linkIdx mapEmpty
            mapSet jumps v.linkIdx
              (mapSet segMap v.segIdx (mapGetD segMap v.segIdx [] ++ [h.y]))
          else jumps)
        jumps)
    mapEmpty

def mergeIntervalsDown (intervals : List (Q × Q)) : List (Q × Q) :=
  intervals.foldl
    (fun merged inv =>
      match merged.getLast? with
      | none => [inv]
      | some last =>
          if qLt inv.1 last.2 then merged.dropLast ++ [(last.1, qMax last.2 inv.2)]
          else merged ++ [inv])
    []

def mergeIntervalsUp (intervals : List (Q × Q)) : List (Q × Q) :=
  intervals.foldl
    (fun merged inv =>
      match merged.getLast? with
      | none => [inv]
      | some last =>
          if qLt last.1 inv.2 then merged.dropLast ++ [(qMin last.1 inv.1, last.2)]
          else merged ++ [inv])
    []

/-- Drawing commands for one polyline segment, inserting the bridge arcs of
its recorded jumps. -/
def emitSegment (cur next : Point) (segJumps : List Q) : List PathCmd :=
  if segJumps.isEmpty then [PathCmd.line next.x next.y]
  else
    let isDown := qLt cur.y next.y
    let sorted := if isDown then sortBy qLt segJumps else sortBy (fun a b => qLt b a) segJumps
    let intervals := sorted.map fun jy => (jy - BRIDGE_RADIUS, jy + BRIDGE_RADIUS)
    let merged := if isDown then mergeIntervalsDown intervals else mergeIntervalsUp intervals
    let res := merged.foldl
      (fun (acc : List PathCmd × Q) inv =>
        let bridgeStart := if isDown then inv.1 else inv.2
        let bridgeEnd := if isDown then inv.2 else inv.1
        let cmds := if qLt qTenth (qAbs (acc.2 - bridgeStart)) then
            acc.1 ++ [PathCmd.line cur.x bridgeStart]
          else acc.1
        let radius := qAbs (bridgeEnd - bridgeStart) / 2
        (cmds ++ [PathCmd.arc radius radius cur.x bridgeEnd], bridgeEnd))
      ([], cur.y)
    res.1 ++ (if qLt qTenth (qAbs (res.2 - next.y)) then [PathCmd.line next.x next.y] else [])

def emitPolyline (jumps : JsMap Nat (JsMap Nat (List Q))) (linkIdx : Nat)
    (points : List Point) : List PathCmd :=
  match points with
  | [] => []
  | p0 :: _ =>
      PathCmd.move p0.x p0.y ::
        (points.zip points.tail).enum.foldl
          (fun acc ip =>
            acc ++ emitSegment ip.2.1 ip.2.2 (mapGetD (mapGetD jumps linkIdx mapEmpty) ip.1 []))
          []

/-- The bridge phase: from the cleaned polylines of all links to their
drawing-command paths. -/
def emitWithBridges (polylines : List (List Point)) : List (List PathCmd) :=
  let segs := collectSegments polylines
  let jumps := computeJumps segs.1 segs.2
  polylines.enum.map fun lp => emitPolyline jumps lp.1 lp.2

def calculateRoutes (nodes : List GraphNode) (links : List GraphLink)
    (customOffsets : JsMap String Q) (customPorts : JsMap String LinkPortConfig) :
    List RouteResult :=
  let meanX := linkMeanX nodes
  let routed := links.map (routeLink meanX customOffsets customPorts)
  let paths := emitWithBridges (routed.map (·.1))
  (paths.zip routed).map fun pm =>
    { path := pm.1, routeType := pm.2.2.1, controlPoint := pm.2.2.2 }

/-! ## Walks, cycles and acyclicity over an adjacency -/

/-- `isWalk adj a mids b`: consecutive edges `a → mids₀ → … → b`
(length `mids.length + 1 ≥ 1`). -/
def isWalk (adj : AdjMap) : String → List String → String → Bool
  | a, [], b => hasEdge adj a b
  | a, m :: ms, b => hasEdge adj a m && isWalk adj m ms b

/-- No closed walk of positive length: the acyclicity notion used for the
rank-monotonicity theorem. -/
def NoClosedWalk (adj : AdjMap) : Prop :=
  ∀ (u : String) (mids : List String), isWalk adj u mids u = false

/-- Consecutive elements of the list are all edges (the shape of the
`visited` path maintained by `calcRank`). -/
def consecEdges (adj : AdjMap) : List String → Bool
  | [] => true
  | [_] => true
  | a :: b :: rest => hasEdge adj a b && consecEdges adj (b :: rest)

/-- Memo-table invariant of `calcRank`: every memoised node's rank dominates
each of its memoised-parent ranks plus the edge weight, and all parents of a
memoised node are memoised. -/
def GoodMemo (adj : AdjMap) (weight : String → String → Nat)
    (memo : JsMap String Nat) : Prop :=
  ∀ c rc, mapGet memo c = some rc → ∀ p ∈ parentsOf adj c,
    ∃ rp, mapGet memo p = some rp ∧ rp + weight p c ≤ rc

/-! ## Concrete scenario inputs -/

/-- Units of the end-to-end scenario of the spec (§8). -/
def scenarioUnits : List ArchaeologicalUnit :=
  [{ id := "1", type := UnitType.LAYER },
   { id := "H1", type := UnitType.ASH_PIT, openingLayerId := some "1" },
   { id := "H2", type := UnitType.ASH_PIT, openingLayerId := some "1" }]

def scenarioRelations : List StratigraphicRelation :=
  [{ id := "r1", sourceId := "H1", targetId := "H2", type := RelationType.CUTS }]

/-- Two mutually-cutting pits: a 2-cycle in the relations. -/
def cycleUnits : List ArchaeologicalUnit :=
  [{ id := "A", type := UnitType.ASH_PIT }, { id := "B", type := UnitType.ASH_PIT }]

def cycleRelations : List StratigraphicRelation :=
  [{ id := "e1", sourceId := "A", targetId := "B", type := RelationType.CUTS },
   { id := "e2", sourceId := "B", targetId := "A", type := RelationType.CUTS }]

/-- The four layers of the layer-ordering scenario. -/
def layerChainUnits : List ArchaeologicalUnit :=
  [{ id := "1", type := UnitType.LAYER }, { id := "2", type := UnitType.LAYER },
   { id := "2a", type := UnitType.LAYER }, { id := "3", type := UnitType.LAYER }]

/-- The chain `A→B→C→D` together with the shortcut edges `A→C`, `A→D`,
`B→D`. -/
def chainAdj : AdjMap :=
  [("A", ["B", "C", "D"]), ("B", ["C", "D"]), ("C", ["D"])]

/-- The two crossing polylines of the bridge-geometry scenario: a horizontal
segment `(0,50)–(100,50)` and, on a different link, a vertical segment
`(50,0)–(50,100)`. -/
def crossingPolylines : List (List Point) :=
  [[⟨0, 50⟩, ⟨100, 50⟩], [⟨50, 0⟩, ⟨50, 100⟩]]

/-- Two stacked pits whose link is forced onto left ports, producing a
side-bracket route. -/
def bracketNodes : List GraphNode :=
  [{ id := "A", type := UnitType.ASH_PIT, x := 100, y := 100, rank := 0 },
   { id := "B", type := UnitType.ASH_PIT, x := 100, y := 200, rank := 1 }]

def bracketLink : GraphLink :=
  { id := "l1",
    source := { id := "A", type := UnitType.ASH_PIT, x := 100, y := 100, rank := 0 },
    target := { id := "B", type := UnitType.ASH_PIT, x := 100, y := 200, rank := 1 },
    type := RelationType.CUTS }

def bracketPorts : JsMap String LinkPortConfig :=
  [("l1", { sourceSide := some Side.left, targetSide := some Side.left })]

/-- A `RouteResult` default for positional access. -/
def defaultRoute : RouteResult := { path := [], routeType := RouteType.Mixed, controlPoint := 0 }

def defaultNode : GraphNode := { id := "", type := UnitType.OTHER, x := 0, y := 0, rank := 0 }

/-- A `GraphLink` default for positional access. -/
def defaultLink : GraphLink :=
  { id := "", source := defaultNode, target := defaultNode, type := RelationType.CUTS }

/-! # Theorems -/

/-! ### Map lemma kit -/

theorem mapGet_mapSet_self {κ α : Type} [DecidableEq κ] (m : JsMap κ α) (k : κ) (v : α) :
    mapGet (mapSet m k v) k = some v := by
  induction m with
  | nil => simp [mapSet, mapGet]
  | cons kv rest ih =>
      obtain ⟨k1, v1⟩ := kv
      by_cases h : k1 = k
      · simp [mapSet, h, mapGet]
      · simp [mapSet, h, mapGet, ih]

theorem mapGet_mapSet_ne {κ α : Type} [DecidableEq κ] (m : JsMap κ α) (k k' : κ) (v : α)
    (h : k ≠ k') : mapGet (mapSet m k v) k' = mapGet m k' := by
  induction m with
  | nil => simp [mapSet, mapGet, h]
  | cons kv rest ih =>
      obtain ⟨k1, v1⟩ := kv
      by_cases h2 : k1 = k
      · subst h2
        simp only [mapSet, if_pos rfl, mapGet]
        rw [if_neg h, if_neg h]
      · simp only [mapSet, if_neg h2, mapGet]
        by_cases h3 : k1 = k'
        · rw [if_pos h3, if_pos h3]
        · rw [if_neg h3, if_neg h3]
          exact ih

theorem mapKeys_mapSet_mem {κ α : Type} [DecidableEq κ] (m : JsMap κ α) (k : κ) (v : α)
    (hk : k ∈ mapKeys m) : mapKeys (mapSet m k v) = mapKeys m := by
  induction m with
  | nil => cases hk
  | cons kv rest ih =>
      obtain ⟨k1, v1⟩ := kv
      by_cases h : k1 = k
      · subst h
        simp [mapSet, mapKeys]
      · simp only [mapKeys, List.map_cons, List.mem_cons] at hk
        rcases hk with hk | hk
        · exact absurd hk.symm h
        · simp only [mapSet, if_neg h, mapKeys, List.map_cons]
          simp only [mapKeys] at ih
          rw [ih hk]

theorem mapKeys_mapSet_not_mem {κ α : Type} [DecidableEq κ] (m : JsMap κ α) (k : κ) (v : α)
    (hk : k ∉ mapKeys m) : mapKeys (mapSet m k v) = mapKeys m ++ [k] := by
  induction m with
  | nil => simp [mapSet, mapKeys]
  | cons kv rest ih =>
      obtain ⟨k1, v1⟩ := kv
      simp only [mapKeys, List.map_cons, List.mem_cons] at hk
      push_neg at hk
      rw [mapSet, if_neg (fun he => hk.1 (Eq.symm he))]
      simp only [mapKeys, List.map_cons]
      simp only [mapKeys] at ih
      rw [ih hk.2, List.cons_append]

theorem mapGet_eq_none_of_not_mem {κ α : Type} [DecidableEq κ] (m : JsMap κ α) (k : κ)
    (h : k ∉ mapKeys m) : mapGet m k = none := by
  induction m with
  | nil => simp [mapGet]
  | cons kv rest ih =>
      obtain ⟨k1, v1⟩ := kv
      simp only [mapKeys, List.map_cons, List.mem_cons] at h
      push_neg at h
      simp only [mapGet]
      rw [if_neg (fun he => h.1 he.symm)]
      exact ih h.2

theorem mem_keys_of_mapGet {κ α : Type} [DecidableEq κ] (m : JsMap κ α) (k : κ) (v : α)
    (h : mapGet m k = some v) : k ∈ mapKeys m := by
  by_contra hc
  rw [mapGet_eq_none_of_not_mem m k hc] at h
  cases h

theorem parentsOf_subset_keys (adj : AdjMap) (n : String) :
    ∀ p ∈ parentsOf adj n, p ∈ mapKeys adj := by
  intro p hp
  rcases List.mem_filterMap.mp hp with ⟨kl, hkl, hf⟩
  by_cases hc : kl.2.contains n = true
  · rw [if_pos hc] at hf
    cases hf
    exact List.mem_map.mpr ⟨kl, hkl, rfl⟩
  · rw [if_neg hc] at hf
    cases hf



theorem filter_vis_le (keys : List String) (n : String) (vis : List String) :
    (keys.filter (fun k => k ∉ n :: vis)).length ≤
      (keys.filter (fun k => k ∉ vis)).length := by
  induction keys with
  | nil => simp
  | cons k rest ih =>
      simp only [List.filter_cons]
      by_cases h1 : k ∈ vis
      · rw [if_neg (by simp [List.mem_cons, h1]), if_neg (by simp [h1])]
        exact ih
      · by_cases h3 : k = n
        · subst h3
          rw [if_neg (by simp), if_pos (by simpa using h1)]
          simp only [List.length_cons]
          omega
        · rw [if_pos (by simp [List.mem_cons, h3, h1]), if_pos (by simpa using h1)]
          simp only [List.length_cons]
          omega

theorem filter_vis_lt (keys : List String) (n : String) (vis : List String)
    (hn : n ∈ keys) (hv : n ∉ vis) :
    (keys.filter (fun k => k ∉ n :: vis)).length + 1 ≤
      (keys.filter (fun k => k ∉ vis)).length := by
  induction keys with
  | nil => cases hn
  | cons k rest ih =>
      simp only [List.filter_cons]
      by_cases h3 : k = n
      · subst h3
        rw [if_neg (by simp), if_pos (by simpa using hv)]
        simp only [List.length_cons]
        have := filter_vis_le rest k vis
        omega
      · have hn' : n ∈ rest := by
          rcases List.mem_cons.mp hn with h | h
          · exact absurd h.symm h3
          · exact h
        by_cases h1 : k ∈ vis
        · rw [if_neg (by simp [List.mem_cons, h1]), if_neg (by simp [h1])]
          exact ih hn'
        · rw [if_pos (by simp [List.mem_cons, h3, h1]), if_pos (by simpa using h1)]
          simp only [List.length_cons]
          have := ih hn'
          omega

theorem filter_vis_eq (keys : List String) (n : String) (vis : List String)
    (hn : n ∉ keys) :
    keys.filter (fun k => k ∉ n :: vis) = keys.filter (fun k => k ∉ vis) := by
  induction keys with
  | nil => rfl
  | cons k rest ih =>
      simp only [List.mem_cons] at hn
      push_neg at hn
      have h3 : ¬ k = n := fun he => hn.1 he.symm
      simp only [List.filter_cons]
      by_cases h1 : k ∈ vis
      · rw [if_neg (by simp [List.mem_cons, h1]), if_neg (by simp [h1])]
        exact ih hn.2
      · rw [if_pos (by simp [List.mem_cons, h3, h1]), if_pos (by simpa using h1)]
        rw [ih hn.2]



theorem calcRank_fold_stable (adj : AdjMap) (weight : String → String → Nat)
    (f1 g1 : Nat) (n : String) (vis : List String)
    (hrec : ∀ (p : String) (memo : JsMap String Nat), p ∈ mapKeys adj →
        calcRank adj weight f1 p (n :: vis) memo = calcRank adj weight g1 p (n :: vis) memo) :
    ∀ (ps : List String) (acc : Nat × JsMap String Nat), (∀ p ∈ ps, p ∈ mapKeys adj) →
      ps.foldl
        (fun acc p =>
          (Nat.max acc.1 ((calcRank adj weight f1 p (n :: vis) acc.2).1 + weight p n),
           (calcRank adj weight f1 p (n :: vis) acc.2).2)) acc =
      ps.foldl
        (fun acc p =>
          (Nat.max acc.1 ((calcRank adj weight g1 p (n :: vis) acc.2).1 + weight p n),
           (calcRank adj weight g1 p (n :: vis) acc.2).2)) acc := by
  intro ps
  induction ps with
  | nil => intro acc _; rfl
  | cons p rest ih =>
      intro acc hps
      simp only [List.foldl_cons]
      rw [hrec p acc.2 (hps p (List.mem_cons_self _ _))]
      exact ih _ (fun q hq => hps q (List.mem_cons_of_mem _ hq))

theorem calcRank_fuel_stable (adj : AdjMap) (weight : String → String → Nat) :
    ∀ (f g : Nat) (n : String) (vis : List String) (memo : JsMap String Nat),
      calcRankMeasure adj n vis ≤ f → calcRankMeasure adj n vis ≤ g →
      calcRank adj weight f n vis memo = calcRank adj weight g n vis memo := by
  intro f
  induction f using Nat.strong_induction_on with
  | _ f ih =>
    intro g n vis memo hf hg
    have hm1 : 1 ≤ calcRankMeasure adj n vis := by
      unfold calcRankMeasure; split <;> omega
    obtain ⟨f1, rfl⟩ : ∃ f1, f = f1 + 1 := ⟨f - 1, by omega⟩
    obtain ⟨g1, rfl⟩ : ∃ g1, g = g1 + 1 := ⟨g - 1, by omega⟩
    simp only [calcRank]
    by_cases hv : n ∈ vis
    · rw [if_pos hv, if_pos hv]
    · rw [if_neg hv, if_neg hv]
      have hrec : ∀ (p : String) (memo' : JsMap String Nat), p ∈ mapKeys adj →
          calcRank adj weight f1 p (n :: vis) memo' =
            calcRank adj weight g1 p (n :: vis) memo' := by
        intro p memo' hpk
        have hstep : calcRankMeasure adj p (n :: vis) + 1 ≤ calcRankMeasure adj n vis := by
          by_cases hnk : n ∈ mapKeys adj
          · have h1 := filter_vis_lt (mapKeys adj) n vis hnk hv
            unfold calcRankMeasure
            rw [if_pos hpk, if_pos hnk]
            omega
          · have h2 := filter_vis_eq (mapKeys adj) n vis hnk
            unfold calcRankMeasure
            rw [if_pos hpk]
            rw [if_neg hnk]
            rw [h2]
        exact ih f1 (by omega) g1 p (n :: vis) memo' (by omega) (by omega)
      cases hmemo : mapGet memo n with
      | some r => rfl
      | none =>
          by_cases hp : (parentsOf adj n).isEmpty
          · rw [if_pos hp, if_pos hp]
          · rw [if_neg hp, if_neg hp]
            rw [calcRank_fold_stable adj weight f1 g1 n vis hrec (parentsOf adj n) (0, memo)
              (parentsOf_subset_keys adj n)]



theorem mapSet_keys_nodup {κ α : Type} [DecidableEq κ] (m : JsMap κ α) (k : κ) (v : α)
    (h : (mapKeys m).Nodup) : (mapKeys (mapSet m k v)).Nodup := by
  by_cases hk : k ∈ mapKeys m
  · rw [mapKeys_mapSet_mem m k v hk]; exact h
  · rw [mapKeys_mapSet_not_mem m k v hk]
    simp [List.nodup_append, h, hk]

theorem mapSet_key_persists {κ α : Type} [DecidableEq κ] (m : JsMap κ α) (k k' : κ) (v : α)
    (h : k ∈ mapKeys m) : k ∈ mapKeys (mapSet m k' v) := by
  by_cases hk : k' ∈ mapKeys m
  · rw [mapKeys_mapSet_mem m k' v hk]; exact h
  · rw [mapKeys_mapSet_not_mem m k' v hk]; exact List.mem_append_left _ h

theorem buildNodeMap_step_eq (units : List ArchaeologicalUnit) :
    buildNodeMap units = units.foldl
      (fun m u => mapSet m u.id
        { id := u.id, type := u.type, description := u.description,
          openingLayerId := u.openingLayerId, x := 0, y := 0, rank := 0 }) mapEmpty := rfl

theorem buildNodeMap_keys_nodup_aux (units : List ArchaeologicalUnit) :
    ∀ (m : JsMap String GraphNode), (mapKeys m).Nodup →
      (mapKeys (units.foldl
        (fun m u => mapSet m u.id
          { id := u.id, type := u.type, description := u.description,
            openingLayerId := u.openingLayerId, x := 0, y := 0, rank := 0 }) m)).Nodup := by
  induction units with
  | nil => intro m h; exact h
  | cons u rest ih =>
      intro m h
      simp only [List.foldl_cons]
      exact ih _ (mapSet_keys_nodup m u.id _ h)

theorem buildNodeMap_keys_nodup (units : List ArchaeologicalUnit) :
    (mapKeys (buildNodeMap units)).Nodup := by
  rw [buildNodeMap_step_eq]
  exact buildNodeMap_keys_nodup_aux units mapEmpty (by simp [mapEmpty, mapKeys])

theorem mapSet_keys_len {κ α : Type} [DecidableEq κ] (m : JsMap κ α) (k : κ) (v : α) :
    (mapKeys (mapSet m k v)).length ≤ (mapKeys m).length + 1 := by
  by_cases hk : k ∈ mapKeys m
  · rw [mapKeys_mapSet_mem m k v hk]; omega
  · rw [mapKeys_mapSet_not_mem m k v hk]; simp

theorem buildNodeMap_keys_len_aux (units : List ArchaeologicalUnit) :
    ∀ (m : JsMap String GraphNode),
      (mapKeys (units.foldl
        (fun m u => mapSet m u.id
          { id := u.id, type := u.type, description := u.description,
            openingLayerId := u.openingLayerId, x := 0, y := 0, rank := 0 }) m)).length ≤
        (mapKeys m).length + units.length := by
  induction units with
  | nil => intro m; simp
  | cons u rest ih =>
      intro m
      simp only [List.foldl_cons, List.length_cons]
      have h1 := ih (mapSet m u.id
        { id := u.id, type := u.type, description := u.description,
          openingLayerId := u.openingLayerId, x := 0, y := 0, rank := 0 })
      have h2 := mapSet_keys_len m u.id
        ({ id := u.id, type := u.type, description := u.description,
           openingLayerId := u.openingLayerId, x := 0, y := 0, rank := 0 } : GraphNode)
      omega

theorem layoutNodeIds_len (units : List ArchaeologicalUnit) :
    (layoutNodeIds units).length ≤ units.length := by
  unfold layoutNodeIds
  rw [buildNodeMap_step_eq]
  have := buildNodeMap_keys_len_aux units mapEmpty
  simpa [mapEmpty, mapKeys] using this

theorem foldl_mapSet_key_persists (units : List ArchaeologicalUnit) :
    ∀ (m : JsMap String GraphNode) (k : String), k ∈ mapKeys m →
      k ∈ mapKeys (units.foldl
        (fun m u => mapSet m u.id
          { id := u.id, type := u.type, description := u.description,
            openingLayerId := u.openingLayerId, x := 0, y := 0, rank := 0 }) m) := by
  induction units with
  | nil => intro m k h; exact h
  | cons u rest ih =>
      intro m k h
      simp only [List.foldl_cons]
      exact ih _ k (mapSet_key_persists m k u.id _ h)

theorem mem_layoutNodeIds_aux (units : List ArchaeologicalUnit) :
    ∀ (m : JsMap String GraphNode) (u : ArchaeologicalUnit), u ∈ units →
      u.id ∈ mapKeys (units.foldl
        (fun m u => mapSet m u.id
          { id := u.id, type := u.type, description := u.description,
            openingLayerId := u.openingLayerId, x := 0, y := 0, rank := 0 }) m) := by
  induction units with
  | nil => intro _ _ h; cases h
  | cons v rest ih =>
      intro m u hu
      simp only [List.foldl_cons]
      rcases List.mem_cons.mp hu with h | h
      · subst h
        exact foldl_mapSet_key_persists rest _ u.id
          (mem_keys_of_mapGet _ _ _ (mapGet_mapSet_self m u.id _))
      · exact ih _ u h

theorem mem_layoutNodeIds (units : List ArchaeologicalUnit) (u : ArchaeologicalUnit)
    (hu : u ∈ units) : u.id ∈ layoutNodeIds units := by
  unfold layoutNodeIds
  rw [buildNodeMap_step_eq]
  exact mem_layoutNodeIds_aux units mapEmpty u hu



theorem reduceEdgeStep_keys (children : List String) (i : String) (acc : AdjMap) (j : String)
    (hi : i ∈ mapKeys acc) : mapKeys (reduceEdgeStep children i acc j) = mapKeys acc := by
  unfold reduceEdgeStep
  split
  · exact mapKeys_mapSet_mem acc i _ hi
  · rfl

theorem reduceEdgeStep_fold_keys (children : List String) (i : String) :
    ∀ (js : List String) (acc : AdjMap), i ∈ mapKeys acc →
      mapKeys (js.foldl (reduceEdgeStep children i) acc) = mapKeys acc := by
  intro js
  induction js with
  | nil => intro acc _; rfl
  | cons j rest ih =>
      intro acc hi
      simp only [List.foldl_cons]
      rw [ih _ (by rw [reduceEdgeStep_keys children i acc j hi]; exact hi)]
      exact reduceEdgeStep_keys children i acc j hi

theorem reduceNode_keys (acc : AdjMap) (i : String) (hi : i ∈ mapKeys acc) :
    mapKeys (reduceNode acc i) = mapKeys acc := by
  unfold reduceNode
  exact reduceEdgeStep_fold_keys _ i _ acc hi

theorem reduction_fold_keys (K : List String) :
    ∀ (ns : List String) (acc : AdjMap), mapKeys acc = K → (∀ i ∈ ns, i ∈ K) →
      mapKeys (ns.foldl reduceNode acc) = K := by
  intro ns
  induction ns with
  | nil => intro acc h _; exact h
  | cons i rest ih =>
      intro acc h hmem
      simp only [List.foldl_cons]
      have hik : i ∈ mapKeys acc := by rw [h]; exact hmem i (List.mem_cons_self _ _)
      exact ih _ (by rw [reduceNode_keys acc i hik]; exact h)
        (fun j hj => hmem j (List.mem_cons_of_mem _ hj))

theorem reduction_init_keys (adj : AdjMap) :
    ∀ (ns : List String) (m : AdjMap), (mapKeys m ++ ns).Nodup →
      mapKeys (ns.foldl (fun m n => mapSet m n (mapGetD adj n [])) m) = mapKeys m ++ ns := by
  intro ns
  induction ns with
  | nil => intro m _; simp
  | cons n rest ih =>
      intro m h
      simp only [List.foldl_cons]
      have hn : n ∉ mapKeys m := by
        rcases List.nodup_append.mp h with ⟨_, _, hdisj⟩
        intro hmem
        exact hdisj hmem (List.mem_cons_self _ _)
      have hkeys : mapKeys (mapSet m n (mapGetD adj n [])) = mapKeys m ++ [n] :=
        mapKeys_mapSet_not_mem m n _ hn
      have hnd : (mapKeys (mapSet m n (mapGetD adj n [])) ++ rest).Nodup := by
        rw [hkeys, List.append_assoc]
        simpa using h
      rw [ih _ hnd, hkeys, List.append_assoc]
      rfl

theorem layoutAdj_keys (units : List ArchaeologicalUnit)
    (relations : List StratigraphicRelation) :
    mapKeys (layoutAdj units relations) = layoutNodeIds units := by
  unfold layoutAdj performTransitiveReduction
  have h1 := reduction_init_keys (buildAdjacency units relations) (layoutNodeIds units)
    mapEmpty (by simpa [mapEmpty, mapKeys] using buildNodeMap_keys_nodup units)
  simp only [mapEmpty, mapKeys, List.map_nil, List.nil_append] at h1
  exact reduction_fold_keys (layoutNodeIds units) (layoutNodeIds units) _ h1 (fun i hi => hi)

theorem filter_nil_vis (keys : List String) :
    keys.filter (fun k => k ∉ ([] : List String)) = keys := by
  induction keys with
  | nil => rfl
  | cons k rest ih => simp [List.filter_cons, ih]

/-- The fuel `units.length + 1` used by the embedding meets the measure at
every top-level call. -/
theorem layout_fuel_enough (units : List ArchaeologicalUnit)
    (relations : List StratigraphicRelation) (u : ArchaeologicalUnit) (hu : u ∈ units) :
    calcRankMeasure (layoutAdj units relations) u.id [] ≤ units.length + 1 := by
  unfold calcRankMeasure
  rw [layoutAdj_keys, filter_nil_vis, if_pos (mem_layoutNodeIds units u hu)]
  have := layoutNodeIds_len units
  omega



theorem mapHas_mapSet_self {κ α : Type} [DecidableEq κ] (m : JsMap κ α) (k : κ) (v : α) :
    mapHas (mapSet m k v) k = true := by
  unfold mapHas
  rw [mapGet_mapSet_self]
  rfl

theorem mapHas_mapSet_persist {κ α : Type} [DecidableEq κ] (m : JsMap κ α) (k k' : κ) (v : α)
    (h : mapHas m k = true) : mapHas (mapSet m k' v) k = true := by
  by_cases he : k' = k
  · subst he; exact mapHas_mapSet_self m k' v
  · unfold mapHas at h ⊢
    rw [mapGet_mapSet_ne m k' k v he]
    exact h

theorem calcRanksWith_stable_aux (adj : AdjMap) (weight : String → String → Nat) (f g : Nat)
    (hstab : ∀ (uid : String) (memo : JsMap String Nat), uid ∈ mapKeys adj →
      calcRank adj weight f uid [] memo = calcRank adj weight g uid [] memo) :
    ∀ (us : List ArchaeologicalUnit) (acc : JsMap String Nat × JsMap String Nat),
      (∀ u ∈ us, u.id ∈ mapKeys adj) →
      us.foldl
        (fun acc u =>
          (mapSet acc.1 u.id (calcRank adj weight f u.id [] acc.2).1,
           (calcRank adj weight f u.id [] acc.2).2)) acc =
      us.foldl
        (fun acc u =>
          (mapSet acc.1 u.id (calcRank adj weight g u.id [] acc.2).1,
           (calcRank adj weight g u.id [] acc.2).2)) acc := by
  intro us
  induction us with
  | nil => intro acc _; rfl
  | cons u rest ih =>
      intro acc hmem
      simp only [List.foldl_cons]
      rw [hstab u.id acc.2 (hmem u (List.mem_cons_self _ _))]
      exact ih _ (fun v hv => hmem v (List.mem_cons_of_mem _ hv))

theorem calcRanksWith_covers_aux (adj : AdjMap) (weight : String → String → Nat) (f : Nat) :
    ∀ (us : List ArchaeologicalUnit) (acc : JsMap String Nat × JsMap String Nat)
      (k : String),
      (mapHas acc.1 k = true ∨ ∃ u ∈ us, u.id = k) →
      mapHas (us.foldl
        (fun acc u =>
          (mapSet acc.1 u.id (calcRank adj weight f u.id [] acc.2).1,
           (calcRank adj weight f u.id [] acc.2).2)) acc).1 k = true := by
  intro us
  induction us with
  | nil =>
      intro acc k h
      rcases h with h | ⟨u, hu, _⟩
      · exact h
      · cases hu
  | cons u rest ih =>
      intro acc k h
      simp only [List.foldl_cons]
      rcases h with h | ⟨v, hv, hk⟩
      · exact ih _ k (Or.inl (mapHas_mapSet_persist _ k u.id _ h))
      · rcases List.mem_cons.mp hv with he | he
        · subst he
          subst hk
          exact ih _ v.id (Or.inl (mapHas_mapSet_self _ v.id _))
        · exact ih _ k (Or.inr ⟨v, he, hk⟩)

theorem calcRank_visited_zero (adj : AdjMap) (weight : String → String → Nat)
    (fuel : Nat) (n : String) (vis : List String) (memo : JsMap String Nat)
    (h : n ∈ vis) : calcRank adj weight fuel n vis memo = (0, memo) := by
  cases fuel with
  | zero => rfl
  | succ f1 =>
      simp only [calcRank]
      rw [if_pos h]

/-- C5: for every input, including cyclic relation sets, the rank
computation of calculateLayout terminates (the recursion needs no more fuel
than the `units.length + 1` the embedding gives it: any larger fuel yields
the same ranks), every unit receives a rank, and a node reached again via
its own ancestor chain contributes rank 0 to that branch instead of
recursing further. -/
theorem rank_computation_cycle_safe (units : List ArchaeologicalUnit)
    (relations : List StratigraphicRelation) (f : Nat) (hf : units.length + 1 ≤ f) :
    calcRanksWith f (layoutAdj units relations)
        (getEdgeWeight (buildNodeMap units) (layerHasFeaturesMap units relations)) units =
      calcRanksWith (units.length + 1) (layoutAdj units relations)
        (getEdgeWeight (buildNodeMap units) (layerHasFeaturesMap units relations)) units ∧
    (∀ u ∈ units, mapHas (layoutRanks units relations) u.id = true) ∧
    (∀ (adj : AdjMap) (weight : String → String → Nat) (fuel : Nat) (n : String)
        (vis : List String) (memo : JsMap String Nat), n ∈ vis →
        calcRank adj weight fuel n vis memo = (0, memo)) := by
  refine ⟨?_, ?_, fun adj weight fuel n vis memo h =>
    calcRank_visited_zero adj weight fuel n vis memo h⟩
  · unfold calcRanksWith
    apply calcRanksWith_stable_aux
    · intro uid memo hk
      apply calcRank_fuel_stable
      · -- measure ≤ f
        rw [layoutAdj_keys] at hk
        unfold calcRankMeasure
        rw [layoutAdj_keys, filter_nil_vis, if_pos hk]
        have := layoutNodeIds_len units
        omega
      · unfold calcRankMeasure
        rw [layoutAdj_keys] at hk
        rw [layoutAdj_keys, filter_nil_vis, if_pos hk]
        have := layoutNodeIds_len units
        omega
    · intro u hu
      rw [layoutAdj_keys]
      exact mem_layoutNodeIds units u hu
  · intro u hu
    unfold layoutRanks calcRanksWith
    exact calcRanksWith_covers_aux _ _ _ units (mapEmpty, mapEmpty) u.id (Or.inr ⟨u, hu, rfl⟩)

/-- C5 witness at the cyclic scenario with fuel 4 ≥ 3. -/
theorem rank_computation_cycle_safe_witness :
    calcRanksWith 4 (layoutAdj cycleUnits cycleRelations)
        (getEdgeWeight (buildNodeMap cycleUnits) (layerHasFeaturesMap cycleUnits cycleRelations))
        cycleUnits =
      calcRanksWith (cycleUnits.length + 1) (layoutAdj cycleUnits cycleRelations)
        (getEdgeWeight (buildNodeMap cycleUnits) (layerHasFeaturesMap cycleUnits cycleRelations))
        cycleUnits ∧
    (∀ u ∈ cycleUnits, mapHas (layoutRanks cycleUnits cycleRelations) u.id = true) ∧
    (∀ (adj : AdjMap) (weight : String → String → Nat) (fuel : Nat) (n : String)
        (vis : List String) (memo : JsMap String Nat), n ∈ vis →
        calcRank adj weight fuel n vis memo = (0, memo)) :=
  rank_computation_cycle_safe cycleUnits cycleRelations 4 (by decide)

theorem mapGet_entry_mem {κ α : Type} [DecidableEq κ] (m : JsMap κ α) (k : κ) (v : α)
    (h : mapGet m k = some v) : (k, v) ∈ m := by
  induction m with
  | nil => cases h
  | cons kv rest ih =>
      obtain ⟨k1, v1⟩ := kv
      simp only [mapGet] at h
      by_cases he : k1 = k
      · rw [if_pos he] at h
        cases h
        subst he
        exact List.mem_cons_self _ _
      · rw [if_neg he] at h
        exact List.mem_cons_of_mem _ (ih h)

theorem hasEdge_mem_parentsOf (adj : AdjMap) (p c : String)
    (h : hasEdge adj p c = true) : p ∈ parentsOf adj c := by
  unfold hasEdge mapGetD at h
  cases hg : mapGet adj p with
  | none => rw [hg] at h; cases h
  | some l =>
      rw [hg] at h
      simp only [Option.getD_some] at h
      refine List.mem_filterMap.mpr ⟨(p, l), mapGet_entry_mem adj p l hg, ?_⟩
      rw [if_pos h]

theorem hasEdge_key_mem (adj : AdjMap) (p c : String)
    (h : hasEdge adj p c = true) : p ∈ mapKeys adj := by
  unfold hasEdge mapGetD at h
  cases hg : mapGet adj p with
  | none => rw [hg] at h; cases h
  | some l => exact mem_keys_of_mapGet adj p l hg

theorem isWalk_append_edge (adj : AdjMap) :
    ∀ (mids : List String) (a b c : String), isWalk adj a mids b = true →
      hasEdge adj b c = true → isWalk adj a (mids ++ [b]) c = true := by
  intro mids
  induction mids with
  | nil =>
      intro a b c hw he
      simp only [isWalk] at hw
      simp only [List.nil_append, isWalk, Bool.and_eq_true]
      exact ⟨hw, he⟩
  | cons m ms ih =>
      intro a b c hw he
      simp only [isWalk, Bool.and_eq_true] at hw
      simp only [List.cons_append, isWalk, Bool.and_eq_true]
      exact ⟨hw.1, ih m b c hw.2 he⟩

theorem consec_prefix_walk (adj : AdjMap) :
    ∀ (rest : List String) (a x : String), consecEdges adj (a :: rest) = true →
      x ∈ rest → ∃ mids, isWalk adj a mids x = true := by
  intro rest
  induction rest with
  | nil => intro a x _ hx; cases hx
  | cons b rest' ih =>
      intro a x hc hx
      simp only [consecEdges, Bool.and_eq_true] at hc
      rcases List.mem_cons.mp hx with he | he
      · subst he
        exact ⟨[], by simp [isWalk, hc.1]⟩
      · rcases ih b x hc.2 he with ⟨mids, hw⟩
        exact ⟨b :: mids, by simp [isWalk, hc.1, hw]⟩

theorem not_visited_of_consec (adj : AdjMap) (hnc : NoClosedWalk adj)
    (n : String) (vis : List String) (hc : consecEdges adj (n :: vis) = true) :
    n ∉ vis := by
  intro hmem
  rcases consec_prefix_walk adj vis n n hc hmem with ⟨mids, hw⟩
  rw [hnc n mids] at hw
  cases hw

/-- A potential function increasing along every edge rules out closed
walks; the hypothesis quantifies over the entries of the map, so it is
decidable for a concrete adjacency. -/
theorem noClosedWalk_of_keys_rank (adj : AdjMap) (phi : String → Nat)
    (h : ∀ kl ∈ adj, ∀ b ∈ kl.2, phi kl.1 < phi b) : NoClosedWalk adj := by
  have hedge : ∀ a b, hasEdge adj a b = true → phi a < phi b := by
    intro a b he
    unfold hasEdge mapGetD at he
    cases hg : mapGet adj a with
    | none => rw [hg] at he; cases he
    | some l =>
        rw [hg] at he
        simp only [Option.getD_some] at he
        exact h (a, l) (mapGet_entry_mem adj a l hg) b (by simpa using he)
  have hwalk : ∀ (mids : List String) (a b : String), isWalk adj a mids b = true →
      phi a < phi b := by
    intro mids
    induction mids with
    | nil => intro a b hw; exact hedge a b (by simpa [isWalk] using hw)
    | cons m ms ih =>
        intro a b hw
        simp only [isWalk, Bool.and_eq_true] at hw
        exact Nat.lt_trans (hedge a m hw.1) (ih m b hw.2)
  intro u mids
  by_contra hne
  have : isWalk adj u mids u = true := by
    cases hiw : isWalk adj u mids u
    · exact absurd hiw hne
    · rfl
  exact absurd (hwalk mids u u this) (Nat.lt_irrefl _)



theorem mapGet_of_entry_mem_nodup {κ α : Type} [DecidableEq κ] (m : JsMap κ α) (k : κ) (v : α)
    (hnd : (mapKeys m).Nodup) (h : (k, v) ∈ m) : mapGet m k = some v := by
  induction m with
  | nil => cases h
  | cons kv rest ih =>
      obtain ⟨k1, v1⟩ := kv
      simp only [mapKeys, List.map_cons, List.nodup_cons] at hnd
      rcases List.mem_cons.mp h with he | he
      · cases he
        simp [mapGet]
      · have hk : k1 ≠ k := by
          intro heq
          subst heq
          exact hnd.1 (List.mem_map.mpr ⟨(k1, v), he, rfl⟩)
        simp only [mapGet, if_neg hk]
        exact ih (by simpa [mapKeys] using hnd.2) he

theorem parentsOf_hasEdge (adj : AdjMap) (hnd : (mapKeys adj).Nodup) (p n : String)
    (hp : p ∈ parentsOf adj n) : hasEdge adj p n = true := by
  rcases List.mem_filterMap.mp hp with ⟨kl, hkl, hf⟩
  by_cases hc : kl.2.contains n = true
  · rw [if_pos hc] at hf
    cases hf
    unfold hasEdge mapGetD
    rw [mapGet_of_entry_mem_nodup adj kl.1 kl.2 hnd hkl]
    simpa using hc
  · rw [if_neg hc] at hf
    cases hf

theorem calcRankMeasure_step (adj : AdjMap) (p n : String) (vis : List String)
    (hpk : p ∈ mapKeys adj) (hv : n ∉ vis) :
    calcRankMeasure adj p (n :: vis) + 1 ≤ calcRankMeasure adj n vis := by
  by_cases hnk : n ∈ mapKeys adj
  · have h1 := filter_vis_lt (mapKeys adj) n vis hnk hv
    unfold calcRankMeasure
    rw [if_pos hpk, if_pos hnk]
    omega
  · have h2 := filter_vis_eq (mapKeys adj) n vis hnk
    unfold calcRankMeasure
    rw [if_pos hpk]
    rw [if_neg hnk]
    rw [h2]

theorem calcRank_fold_good (adj : AdjMap) (weight : String → String → Nat)
    (hnc : NoClosedWalk adj) (f1 : Nat) (n : String) (vis : List String)
    (hIH : ∀ (p : String) (memo : JsMap String Nat), p ∈ mapKeys adj →
      consecEdges adj (p :: n :: vis) = true →
      calcRankMeasure adj p (n :: vis) ≤ f1 → GoodMemo adj weight memo →
      GoodMemo adj weight (calcRank adj weight f1 p (n :: vis) memo).2 ∧
      mapGet (calcRank adj weight f1 p (n :: vis) memo).2 p =
        some (calcRank adj weight f1 p (n :: vis) memo).1 ∧
      (∀ k v, mapGet memo k = some v →
        mapGet (calcRank adj weight f1 p (n :: vis) memo).2 k = some v) ∧
      (∀ k, mapGet memo k = none →
        mapGet (calcRank adj weight f1 p (n :: vis) memo).2 k ≠ none →
        k = p ∨ ∃ mids, isWalk adj k mids p = true)) :
    ∀ (ps : List String) (acc : Nat × JsMap String Nat),
      (∀ p ∈ ps, hasEdge adj p n = true ∧ p ∈ mapKeys adj ∧
        calcRankMeasure adj p (n :: vis) ≤ f1) →
      consecEdges adj (n :: vis) = true →
      GoodMemo adj weight acc.2 →
      GoodMemo adj weight (ps.foldl
        (fun acc p =>
          (Nat.max acc.1 ((calcRank adj weight f1 p (n :: vis) acc.2).1 + weight p n),
           (calcRank adj weight f1 p (n :: vis) acc.2).2)) acc).2 ∧
      (∀ k v, mapGet acc.2 k = some v →
        mapGet (ps.foldl
          (fun acc p =>
            (Nat.max acc.1 ((calcRank adj weight f1 p (n :: vis) acc.2).1 + weight p n),
             (calcRank adj weight f1 p (n :: vis) acc.2).2)) acc).2 k = some v) ∧
      (∀ k, mapGet acc.2 k = none →
        mapGet (ps.foldl
          (fun acc p =>
            (Nat.max acc.1 ((calcRank adj weight f1 p (n :: vis) acc.2).1 + weight p n),
             (calcRank adj weight f1 p (n :: vis) acc.2).2)) acc).2 k ≠ none →
        ∃ mids, isWalk adj k mids n = true) ∧
      (∀ p ∈ ps, ∃ rp,
        mapGet (ps.foldl
          (fun acc p =>
            (Nat.max acc.1 ((calcRank adj weight f1 p (n :: vis) acc.2).1 + weight p n),
             (calcRank adj weight f1 p (n :: vis) acc.2).2)) acc).2 p = some rp ∧
        rp + weight p n ≤ (ps.foldl
          (fun acc p =>
            (Nat.max acc.1 ((calcRank adj weight f1 p (n :: vis) acc.2).1 + weight p n),
             (calcRank adj weight f1 p (n :: vis) acc.2).2)) acc).1) ∧
      acc.1 ≤ (ps.foldl
        (fun acc p =>
          (Nat.max acc.1 ((calcRank adj weight f1 p (n :: vis) acc.2).1 + weight p n),
           (calcRank adj weight f1 p (n :: vis) acc.2).2)) acc).1 := by
  intro ps
  induction ps with
  | nil =>
      intro acc _ _ hgood
      refine ⟨hgood, fun k v h => h, fun k h1 h2 => absurd h1 h2, ?_, Nat.le_refl _⟩
      intro p hp
      cases hp
  | cons p rest ih =>
      intro acc hps hchain hgood
      have hspec := hps p (List.mem_cons_self _ _)
      have hpchain : consecEdges adj (p :: n :: vis) = true := by
        cases vis with
        | nil => simp [consecEdges, hspec.1]
        | cons v vs =>
            simp only [consecEdges, Bool.and_eq_true] at hchain ⊢
            exact ⟨hspec.1, hchain⟩
      obtain ⟨g1, g2, g3, g4⟩ :=
        hIH p acc.2 hspec.2.1 hpchain hspec.2.2 hgood
      simp only [List.foldl_cons]
      obtain ⟨G1, G2, G3, G4, G5⟩ := ih
        (Nat.max acc.1 ((calcRank adj weight f1 p (n :: vis) acc.2).1 + weight p n),
         (calcRank adj weight f1 p (n :: vis) acc.2).2)
        (fun q hq => hps q (List.mem_cons_of_mem _ hq)) hchain g1
      refine ⟨G1, ?_, ?_, ?_, ?_⟩
      · intro k v hk
        exact G2 k v (g3 k v hk)
      · intro k hk1 hk2
        cases hres : mapGet (calcRank adj weight f1 p (n :: vis) acc.2).2 k with
        | some v =>
            rcases g4 k hk1 (by rw [hres]; exact Option.noConfusion) with he | ⟨mids, hw⟩
            · subst he
              exact ⟨[], by simpa [isWalk] using hspec.1⟩
            · exact ⟨mids ++ [p], isWalk_append_edge adj mids k p n hw hspec.1⟩
        | none => exact G3 k hres hk2
      · intro q hq
        rcases List.mem_cons.mp hq with he | he
        · subst he
          refine ⟨(calcRank adj weight f1 q (n :: vis) acc.2).1, G2 _ _ g2, ?_⟩
          calc (calcRank adj weight f1 q (n :: vis) acc.2).1 + weight q n
              ≤ Nat.max acc.1 ((calcRank adj weight f1 q (n :: vis) acc.2).1 + weight q n) :=
                Nat.le_max_right _ _
            _ ≤ _ := G5
        · exact G4 q he
      · exact Nat.le_trans (Nat.le_max_left _ _) G5



theorem calcRank_good (adj : AdjMap) (weight : String → String → Nat)
    (hnc : NoClosedWalk adj) (hnd : (mapKeys adj).Nodup) :
    ∀ (fuel : Nat) (n : String) (vis : List String) (memo : JsMap String Nat),
      consecEdges adj (n :: vis) = true →
      calcRankMeasure adj n vis ≤ fuel →
      GoodMemo adj weight memo →
      GoodMemo adj weight (calcRank adj weight fuel n vis memo).2 ∧
      mapGet (calcRank adj weight fuel n vis memo).2 n =
        some (calcRank adj weight fuel n vis memo).1 ∧
      (∀ k v, mapGet memo k = some v →
        mapGet (calcRank adj weight fuel n vis memo).2 k = some v) ∧
      (∀ k, mapGet memo k = none →
        mapGet (calcRank adj weight fuel n vis memo).2 k ≠ none →
        k = n ∨ ∃ mids, isWalk adj k mids n = true) := by
  intro fuel
  induction fuel using Nat.strong_induction_on with
  | _ fuel ih =>
    intro n vis memo hchain hfm hgood
    have hm1 : 1 ≤ calcRankMeasure adj n vis := by
      unfold calcRankMeasure; split <;> omega
    obtain ⟨f1, rfl⟩ : ∃ f1, fuel = f1 + 1 := ⟨fuel - 1, by omega⟩
    have hv : n ∉ vis := not_visited_of_consec adj hnc n vis hchain
    simp only [calcRank]
    rw [if_neg hv]
    cases hmemo : mapGet memo n with
    | some r =>
        refine ⟨hgood, hmemo, fun k v h => h, fun k h1 h2 => absurd h1 h2⟩
    | none =>
        by_cases hp : (parentsOf adj n).isEmpty
        · rw [if_pos hp]
          have hplist : parentsOf adj n = [] := List.isEmpty_iff.mp hp
          refine ⟨?_, by simpa using mapGet_mapSet_self memo n 0, ?_, ?_⟩
          · intro c rc hc p hp'
            by_cases hcn : c = n
            · subst hcn
              rw [hplist] at hp'
              cases hp'
            · rw [mapGet_mapSet_ne memo n c 0 (fun he => hcn he.symm)] at hc
              rcases hgood c rc hc p hp' with ⟨rp, hrp, hb⟩
              refine ⟨rp, ?_, hb⟩
              have hpn : p ≠ n := by
                intro he
                subst he
                rw [hmemo] at hrp
                cases hrp
              rw [mapGet_mapSet_ne memo n p 0 (fun he => hpn he.symm)]
              exact hrp
          · intro k v hk
            have hkn : k ≠ n := by
              intro he
              subst he
              rw [hmemo] at hk
              cases hk
            rw [mapGet_mapSet_ne memo n k 0 (fun he => hkn he.symm)]
            exact hk
          · intro k hk1 hk2
            by_cases hkn : k = n
            · exact Or.inl hkn
            · rw [mapGet_mapSet_ne memo n k 0 (fun he => hkn he.symm)] at hk2
              exact absurd hk1 hk2
        · rw [if_neg hp]
          have hps : ∀ p ∈ parentsOf adj n, hasEdge adj p n = true ∧ p ∈ mapKeys adj ∧
              calcRankMeasure adj p (n :: vis) ≤ f1 := by
            intro p hp'
            have hpk := parentsOf_subset_keys adj n p hp'
            refine ⟨parentsOf_hasEdge adj hnd p n hp', hpk, ?_⟩
            have := calcRankMeasure_step adj p n vis hpk hv
            omega
          have hIH : ∀ (p : String) (memo' : JsMap String Nat), p ∈ mapKeys adj →
              consecEdges adj (p :: n :: vis) = true →
              calcRankMeasure adj p (n :: vis) ≤ f1 → GoodMemo adj weight memo' →
              GoodMemo adj weight (calcRank adj weight f1 p (n :: vis) memo').2 ∧
              mapGet (calcRank adj weight f1 p (n :: vis) memo').2 p =
                some (calcRank adj weight f1 p (n :: vis) memo').1 ∧
              (∀ k v, mapGet memo' k = some v →
                mapGet (calcRank adj weight f1 p (n :: vis) memo').2 k = some v) ∧
              (∀ k, mapGet memo' k = none →
                mapGet (calcRank adj weight f1 p (n :: vis) memo').2 k ≠ none →
                k = p ∨ ∃ mids, isWalk adj k mids p = true) :=
            fun p memo' _ hpchain hpm hpg => ih f1 (by omega) p (n :: vis) memo' hpchain hpm hpg
          obtain ⟨G1, G2, G3, G4, G5⟩ := calcRank_fold_good adj weight hnc f1 n vis hIH
            (parentsOf adj n) (0, memo) hps hchain hgood
          have hnout : mapGet ((parentsOf adj n).foldl
              (fun acc p =>
                (Nat.max acc.1 ((calcRank adj weight f1 p (n :: vis) acc.2).1 + weight p n),
                 (calcRank adj weight f1 p (n :: vis) acc.2).2)) (0, memo)).2 n = none := by
            cases hno : mapGet ((parentsOf adj n).foldl
              (fun acc p =>
                (Nat.max acc.1 ((calcRank adj weight f1 p (n :: vis) acc.2).1 + weight p n),
                 (calcRank adj weight f1 p (n :: vis) acc.2).2)) (0, memo)).2 n with
            | none => rfl
            | some v =>
                exfalso
                rcases G3 n hmemo (by rw [hno]; exact Option.noConfusion) with ⟨mids, hw⟩
                rw [hnc n mids] at hw
                cases hw
          refine ⟨?_, by simpa using mapGet_mapSet_self _ n _, ?_, ?_⟩
          · intro c rc hc p hp'
            by_cases hcn : c = n
            · subst hcn
              rw [mapGet_mapSet_self] at hc
              cases hc
              rcases G4 p hp' with ⟨rp, hrp, hb⟩
              have hpn : p ≠ c := by
                intro he
                subst he
                have hedge := parentsOf_hasEdge adj hnd p p hp'
                have : isWalk adj p [] p = true := by simpa [isWalk] using hedge
                rw [hnc p []] at this
                cases this
              refine ⟨rp, ?_, hb⟩
              rw [mapGet_mapSet_ne _ c p _ (fun he => hpn he.symm)]
              exact hrp
            · rw [mapGet_mapSet_ne _ n c _ (fun he => hcn he.symm)] at hc
              rcases G1 c rc hc p hp' with ⟨rp, hrp, hb⟩
              have hpn : p ≠ n := by
                intro he
                subst he
                rw [hnout] at hrp
                cases hrp
              refine ⟨rp, ?_, hb⟩
              rw [mapGet_mapSet_ne _ n p _ (fun he => hpn he.symm)]
              exact hrp
          · intro k v hk
            have hkn : k ≠ n := by
              intro he
              subst he
              rw [hmemo] at hk
              cases hk
            rw [mapGet_mapSet_ne _ n k _ (fun he => hkn he.symm)]
            exact G2 k v hk
          · intro k hk1 hk2
            by_cases hkn : k = n
            · exact Or.inl hkn
            · rw [mapGet_mapSet_ne _ n k _ (fun he => hkn he.symm)] at hk2
              rcases G3 k hk1 hk2 with ⟨mids, hw⟩
              exact Or.inr ⟨mids, hw⟩



/-- Generic preservation of an edge predicate along a fold. -/
theorem foldl_edge_inv {β : Type} (P : String → String → Prop) (step : AdjMap → β → AdjMap)
    (hstep : ∀ (a : AdjMap) (b : β), (∀ x y, hasEdge a x y = true → P x y) →
      ∀ x y, hasEdge (step a b) x y = true → P x y) :
    ∀ (l : List β) (a : AdjMap), (∀ x y, hasEdge a x y = true → P x y) →
      ∀ x y, hasEdge (l.foldl step a) x y = true → P x y := by
  intro l
  induction l with
  | nil => intro a h; exact h
  | cons b rest ih =>
      intro a h
      simp only [List.foldl_cons]
      exact ih _ (hstep a b h)

theorem hasEdge_mapSet (a : AdjMap) (u : String) (L : List String) (x y : String)
    (h : hasEdge (mapSet a u L) x y = true) :
    (x = u ∧ y ∈ L) ∨ (x ≠ u ∧ hasEdge a x y = true) := by
  by_cases he : x = u
  · subst he
    unfold hasEdge mapGetD at h
    rw [mapGet_mapSet_self] at h
    exact Or.inl ⟨rfl, by simpa using h⟩
  · unfold hasEdge mapGetD at h ⊢
    rw [mapGet_mapSet_ne a u x L (fun hh => he hh.symm)] at h
    exact Or.inr ⟨he, h⟩

theorem addEdge_values (nm : JsMap String GraphNode) (a : AdjMap) (u v : String)
    (hinv : ∀ x y, hasEdge a x y = true → y ∈ mapKeys nm) :
    ∀ x y, hasEdge (addEdge nm a u v) x y = true → y ∈ mapKeys nm := by
  intro x y h
  unfold addEdge at h
  by_cases hc1 : (!(mapHas nm u) || !(mapHas nm v)) = true
  · rw [if_pos hc1] at h
    exact hinv x y h
  · rw [if_neg hc1] at h
    have hv : mapHas nm v = true := by
      simp only [Bool.or_eq_true, Bool.not_eq_true'] at hc1
      push_neg at hc1
      simpa using hc1.2
    by_cases hc2 : (mapGetD a u []).contains v = true
    · rw [if_pos hc2] at h
      exact hinv x y h
    · rw [if_neg hc2] at h
      rcases hasEdge_mapSet a u _ x y h with ⟨hx, hy⟩ | ⟨_, hold⟩
      · rcases List.mem_append.mp hy with hy1 | hy2
        · subst hx
          refine hinv x y ?_
          unfold hasEdge
          simpa using hy1
        · have : y = v := by simpa using hy2
          subst this
          unfold mapHas at hv
          cases hg : mapGet nm y with
          | none => rw [hg] at hv; cases hv
          | some node => exact mem_keys_of_mapGet nm y node hg
      · exact hinv x y hold

theorem hasEdge_nil (x y : String) : hasEdge ([] : AdjMap) x y = false := rfl

theorem buildAdjacency_values (units : List ArchaeologicalUnit)
    (relations : List StratigraphicRelation) :
    ∀ x y, hasEdge (buildAdjacency units relations) x y = true →
      y ∈ mapKeys (buildNodeMap units) := by
  unfold buildAdjacency
  apply foldl_edge_inv
  · intro a b hinv x y h
    exact addEdge_values _ a _ _ hinv x y h
  · apply foldl_edge_inv
    · intro a u hinv x y h
      split at h
      · split at h
        · exact addEdge_values _ a _ _ hinv x y h
        · exact hinv x y h
      · exact hinv x y h
    · apply foldl_edge_inv
      · intro a r hinv x y h
        exact addEdge_values _ a _ _ hinv x y h
      · intro x y h
        exact absurd h (by rw [show (mapEmpty : AdjMap) = [] from rfl, hasEdge_nil]; simp)

theorem reduceEdgeStep_sub (children : List String) (i : String) (acc : AdjMap) (j : String) :
    ∀ x y, hasEdge (reduceEdgeStep children i acc j) x y = true → hasEdge acc x y = true := by
  intro x y h
  unfold reduceEdgeStep at h
  split at h
  · rcases hasEdge_mapSet acc i _ x y h with ⟨hx, hy⟩ | ⟨_, hold⟩
    · subst hx
      unfold hasEdge
      have := List.mem_of_mem_filter hy
      simpa using this
    · exact hold
  · exact h

theorem reduceNode_sub (acc : AdjMap) (i : String) :
    ∀ x y, hasEdge (reduceNode acc i) x y = true → hasEdge acc x y = true := by
  unfold reduceNode
  apply foldl_edge_inv (fun x y => hasEdge acc x y = true)
  · intro a j hinv x y h
    exact hinv x y (reduceEdgeStep_sub _ i a j x y h)
  · exact fun x y h => h

theorem reduction_init_sub (adj : AdjMap) :
    ∀ (ns : List String) (x y : String),
      hasEdge (ns.foldl (fun m n => mapSet m n (mapGetD adj n [])) mapEmpty) x y = true →
      hasEdge adj x y = true := by
  intro ns x y
  refine foldl_edge_inv (fun x y => hasEdge adj x y = true) _ ?_ ns mapEmpty ?_ x y
  · intro a n hinv x y h
    rcases hasEdge_mapSet a n _ x y h with ⟨hx, hy⟩ | ⟨_, hold⟩
    · subst hx
      unfold hasEdge
      simpa using hy
    · exact hinv x y hold
  · intro x y h
    exact absurd h (by rw [show (mapEmpty : AdjMap) = [] from rfl, hasEdge_nil]; simp)

theorem layoutAdj_sub (units : List ArchaeologicalUnit)
    (relations : List StratigraphicRelation) :
    ∀ x y, hasEdge (layoutAdj units relations) x y = true →
      hasEdge (buildAdjacency units relations) x y = true := by
  intro x y h
  unfold layoutAdj performTransitiveReduction at h
  have h2 := foldl_edge_inv
    (fun x y => hasEdge ((layoutNodeIds units).foldl
      (fun m n => mapSet m n (mapGetD (buildAdjacency units relations) n [])) mapEmpty) x y = true)
    reduceNode
    (fun a i hinv x y hh => hinv x y (reduceNode_sub a i x y hh))
    (layoutNodeIds units) _ (fun x y hh => hh) x y h
  exact reduction_init_sub (buildAdjacency units relations) (layoutNodeIds units) x y h2

theorem layoutAdj_values (units : List ArchaeologicalUnit)
    (relations : List StratigraphicRelation) :
    ∀ x y, hasEdge (layoutAdj units relations) x y = true → y ∈ layoutNodeIds units := by
  intro x y h
  exact buildAdjacency_values units relations x y (layoutAdj_sub units relations x y h)

theorem layoutNodeIds_sub_aux (units : List ArchaeologicalUnit) :
    ∀ (m : JsMap String GraphNode) (id : String),
      id ∈ mapKeys (units.foldl
        (fun m u => mapSet m u.id
          { id := u.id, type := u.type, description := u.description,
            openingLayerId := u.openingLayerId, x := 0, y := 0, rank := 0 }) m) →
      id ∈ mapKeys m ∨ ∃ u ∈ units, u.id = id := by
  induction units with
  | nil => intro m id h; exact Or.inl h
  | cons u rest ih =>
      intro m id h
      simp only [List.foldl_cons] at h
      rcases ih _ id h with h2 | ⟨v, hv, hid⟩
      · by_cases hm : u.id ∈ mapKeys m
        · rw [mapKeys_mapSet_mem _ _ _ hm] at h2
          exact Or.inl h2
        · rw [mapKeys_mapSet_not_mem _ _ _ hm] at h2
          rcases List.mem_append.mp h2 with h3 | h3
          · exact Or.inl h3
          · exact Or.inr ⟨u, List.mem_cons_self _ _, by
              have : id = u.id := by simpa using h3
              exact this.symm⟩
      · exact Or.inr ⟨v, List.mem_cons_of_mem _ hv, hid⟩

theorem layoutNodeIds_sub (units : List ArchaeologicalUnit) :
    ∀ id ∈ layoutNodeIds units, ∃ u ∈ units, u.id = id := by
  intro id h
  unfold layoutNodeIds at h
  rw [buildNodeMap_step_eq] at h
  rcases layoutNodeIds_sub_aux units mapEmpty id h with h2 | h2
  · cases h2
  · exact h2



theorem calcRanksWith_good_aux (adj : AdjMap) (weight : String → String → Nat)
    (hnc : NoClosedWalk adj) (hnd : (mapKeys adj).Nodup) (N : Nat) :
    ∀ (us : List ArchaeologicalUnit) (acc : JsMap String Nat × JsMap String Nat),
      (∀ u ∈ us, calcRankMeasure adj u.id [] ≤ N) →
      GoodMemo adj weight acc.2 →
      (∀ uid r, mapGet acc.1 uid = some r → mapGet acc.2 uid = some r) →
      GoodMemo adj weight (us.foldl
        (fun acc u =>
          (mapSet acc.1 u.id (calcRank adj weight N u.id [] acc.2).1,
           (calcRank adj weight N u.id [] acc.2).2)) acc).2 ∧
      (∀ uid r, mapGet (us.foldl
          (fun acc u =>
            (mapSet acc.1 u.id (calcRank adj weight N u.id [] acc.2).1,
             (calcRank adj weight N u.id [] acc.2).2)) acc).1 uid = some r →
        mapGet (us.foldl
          (fun acc u =>
            (mapSet acc.1 u.id (calcRank adj weight N u.id [] acc.2).1,
             (calcRank adj weight N u.id [] acc.2).2)) acc).2 uid = some r) := by
  intro us
  induction us with
  | nil => intro acc _ hg ha; exact ⟨hg, ha⟩
  | cons u rest ih =>
      intro acc hm hg ha
      simp only [List.foldl_cons]
      have hchain : consecEdges adj [u.id] = true := rfl
      obtain ⟨g1, g2, g3, _⟩ := calcRank_good adj weight hnc hnd N u.id [] acc.2 hchain
        (hm u (List.mem_cons_self _ _)) hg
      refine ih _ (fun v hv => hm v (List.mem_cons_of_mem _ hv)) g1 ?_
      intro uid r hr
      by_cases he : uid = u.id
      · subst he
        rw [mapGet_mapSet_self] at hr
        cases hr
        exact g2
      · rw [mapGet_mapSet_ne _ _ _ _ (fun hh => he hh.symm)] at hr
        exact g3 uid r (ha uid r hr)

theorem getEdgeWeight_ge_one (nm : JsMap String GraphNode) (lhf : JsMap String Bool)
    (p c : String) : 1 ≤ getEdgeWeight nm lhf p c := by
  unfold getEdgeWeight
  dsimp only
  split <;> omega

theorem getEdgeWeight_two (nm : JsMap String GraphNode) (lhf : JsMap String Bool)
    (p c : String) (h1 : (mapGet nm p).map (·.type) = some UnitType.LAYER)
    (h2 : (mapGet nm c).map (·.type) = some UnitType.LAYER)
    (h3 : mapGetD lhf p false = true) : getEdgeWeight nm lhf p c = 2 := by
  unfold getEdgeWeight
  dsimp only
  rw [if_pos (by simp [h1, h2, h3])]

/-- C2 (amended): for every input whose post-reduction adjacency has no
closed walk, every retained edge (p→c) satisfies rank(c) ≥ rank(p) + 1, and
rank(c) ≥ rank(p) + 2 when p and c are both LAYER-type and p also has at
least one non-LAYER child in the pre-reduction adjacency (the condition the
code's edge weight tests). -/
theorem rank_monotone (units : List ArchaeologicalUnit)
    (relations : List StratigraphicRelation)
    (hnc : NoClosedWalk (layoutAdj units relations)) (p c : String)
    (he : hasEdge (layoutAdj units relations) p c = true) :
    ∃ rp rc, mapGet (layoutRanks units relations) p = some rp ∧
      mapGet (layoutRanks units relations) c = some rc ∧
      rp + 1 ≤ rc ∧
      (((mapGet (buildNodeMap units) p).map (·.type) = some UnitType.LAYER ∧
        (mapGet (buildNodeMap units) c).map (·.type) = some UnitType.LAYER ∧
        mapGetD (layerHasFeaturesMap units relations) p false = true) →
        rp + 2 ≤ rc) := by
  have hnd : (mapKeys (layoutAdj units relations)).Nodup := by
    rw [layoutAdj_keys]
    exact buildNodeMap_keys_nodup units
  have hpk : p ∈ layoutNodeIds units := by
    rw [← layoutAdj_keys units relations]
    exact hasEdge_key_mem _ p c he
  have hck : c ∈ layoutNodeIds units := layoutAdj_values units relations p c he
  rcases layoutNodeIds_sub units p hpk with ⟨up, hup, hupid⟩
  rcases layoutNodeIds_sub units c hck with ⟨uc, huc, hucid⟩
  have hmeas : ∀ u ∈ units,
      calcRankMeasure (layoutAdj units relations) u.id [] ≤ units.length + 1 :=
    fun u hu => layout_fuel_enough units relations u hu
  obtain ⟨hgood, hagree⟩ := calcRanksWith_good_aux (layoutAdj units relations)
    (getEdgeWeight (buildNodeMap units) (layerHasFeaturesMap units relations)) hnc hnd
    (units.length + 1) units (mapEmpty, mapEmpty) hmeas
    (by intro c' rc' hc'; cases hc') (by intro uid r hr; cases hr)
  have hhasp : mapHas (layoutRanks units relations) p = true := by
    unfold layoutRanks calcRanksWith
    exact calcRanksWith_covers_aux _ _ _ units (mapEmpty, mapEmpty) p
      (Or.inr ⟨up, hup, hupid⟩)
  have hhasc : mapHas (layoutRanks units relations) c = true := by
    unfold layoutRanks calcRanksWith
    exact calcRanksWith_covers_aux _ _ _ units (mapEmpty, mapEmpty) c
      (Or.inr ⟨uc, huc, hucid⟩)
  rcases Option.isSome_iff_exists.mp (by simpa [mapHas] using hhasp) with ⟨rp, hrp⟩
  rcases Option.isSome_iff_exists.mp (by simpa [mapHas] using hhasc) with ⟨rc, hrc⟩
  have hmp := hagree p rp hrp
  have hmc := hagree c rc hrc
  have hpar : p ∈ parentsOf (layoutAdj units relations) c :=
    hasEdge_mem_parentsOf _ p c he
  rcases hgood c rc hmc p hpar with ⟨rp', hrp', hb⟩
  rw [hmp] at hrp'
  injection hrp' with hinj
  refine ⟨rp, rc, hrp, hrc, ?_, ?_⟩
  · have hw := getEdgeWeight_ge_one (buildNodeMap units)
      (layerHasFeaturesMap units relations) p c
    omega
  · intro hcond
    have hw := getEdgeWeight_two (buildNodeMap units)
      (layerHasFeaturesMap units relations) p c hcond.1 hcond.2.1 hcond.2.2
    omega



/-- C2 witness: the retained edge 1→H1 of the scenario layout. -/
theorem rank_monotone_witness :
    ∃ rp rc, mapGet (layoutRanks scenarioUnits scenarioRelations) "1" = some rp ∧
      mapGet (layoutRanks scenarioUnits scenarioRelations) "H1" = some rc ∧
      rp + 1 ≤ rc ∧
      (((mapGet (buildNodeMap scenarioUnits) "1").map (·.type) = some UnitType.LAYER ∧
        (mapGet (buildNodeMap scenarioUnits) "H1").map (·.type) = some UnitType.LAYER ∧
        mapGetD (layerHasFeaturesMap scenarioUnits scenarioRelations) "1" false = true) →
        rp + 2 ≤ rc) :=
  rank_monotone scenarioUnits scenarioRelations
    (noClosedWalk_of_keys_rank _
      (fun s => if s = "1" then 0 else if s = "H1" then 1 else 2) (by decide))
    "1" "H1" (by decide)

theorem entries_filter_nil (adj : AdjMap) :
    adj.filter (fun kl => kl.1 ∉ ([] : List String)) = adj := by
  induction adj with
  | nil => rfl
  | cons kl rest ih => simp [List.filter_cons, ih]

theorem pot_sum_le (adj : AdjMap) (curr : String) (visited : List String) :
    ((adj.filter (fun kl => kl.1 ∉ curr :: visited)).map (fun kl => 1 + kl.2.length)).sum ≤
      ((adj.filter (fun kl => kl.1 ∉ visited)).map (fun kl => 1 + kl.2.length)).sum := by
  induction adj with
  | nil => simp
  | cons kl rest ih =>
      simp only [List.filter_cons]
      by_cases h1 : kl.1 ∈ visited
      · rw [if_neg (by simp [List.mem_cons, h1]), if_neg (by simp [h1])]
        exact ih
      · by_cases h2 : kl.1 = curr
        · rw [if_neg (by simp [List.mem_cons, h2]), if_pos (by simpa using h1)]
          simp only [List.map_cons, List.sum_cons]
          omega
        · rw [if_pos (by simp [List.mem_cons, h2, h1]), if_pos (by simpa using h1)]
          simp only [List.map_cons, List.sum_cons]
          omega

theorem mapGet_cons_ne {κ α : Type} [DecidableEq κ] (k1 : κ) (v1 : α)
    (rest : JsMap κ α) (k : κ) (h : k1 ≠ k) :
    mapGet ((k1, v1) :: rest) k = mapGet rest k := by
  simp [mapGet, h]

theorem pot_sum_lt (adj : AdjMap) (curr : String) (visited : List String)
    (hk : curr ∈ mapKeys adj) (hnv : curr ∉ visited) :
    ((adj.filter (fun kl => kl.1 ∉ curr :: visited)).map (fun kl => 1 + kl.2.length)).sum
      + 1 + (mapGetD adj curr []).length ≤
    ((adj.filter (fun kl => kl.1 ∉ visited)).map (fun kl => 1 + kl.2.length)).sum := by
  induction adj with
  | nil => cases hk
  | cons kl rest ih =>
      obtain ⟨k1, l1⟩ := kl
      by_cases h2 : k1 = curr
      · subst h2
        have hget : mapGetD ((k1, l1) :: rest) k1 [] = l1 := by
          unfold mapGetD
          simp [mapGet]
        rw [hget]
        simp only [List.filter_cons]
        rw [if_neg (by simp [List.mem_cons]), if_pos (by simpa using hnv)]
        simp only [List.map_cons, List.sum_cons]
        have := pot_sum_le rest k1 visited
        omega
      · have hkrest : curr ∈ mapKeys rest := by
          have hm : curr ∈ k1 :: mapKeys rest := by simpa [mapKeys] using hk
          rcases List.mem_cons.mp hm with h | h
          · exact absurd h (fun hh => h2 hh.symm)
          · exact h
        have hget : mapGetD ((k1, l1) :: rest) curr [] = mapGetD rest curr [] := by
          unfold mapGetD
          rw [mapGet_cons_ne k1 l1 rest curr h2]
        rw [hget]
        simp only [List.filter_cons]
        by_cases h1 : k1 ∈ visited
        · rw [if_neg (by simp [List.mem_cons, h1]), if_neg (by simp [h1])]
          exact ih hkrest
        · rw [if_pos (by simp [List.mem_cons, h2, h1]), if_pos (by simpa using h1)]
          simp only [List.map_cons, List.sum_cons]
          have := ih hkrest
          omega

theorem pot_sum_eq (adj : AdjMap) (curr : String) (visited : List String)
    (hk : curr ∉ mapKeys adj) :
    adj.filter (fun kl => kl.1 ∉ curr :: visited) = adj.filter (fun kl => kl.1 ∉ visited) := by
  induction adj with
  | nil => rfl
  | cons kl rest ih =>
      obtain ⟨k1, l1⟩ := kl
      have hk1 : k1 ≠ curr ∧ curr ∉ mapKeys rest := by
        constructor
        · intro he
          exact hk (by simp [mapKeys, he])
        · intro hm
          exact hk (by simp [mapKeys]; right; simpa [mapKeys] using hm)
      simp only [List.filter_cons]
      by_cases h1 : k1 ∈ visited
      · rw [if_neg (by simp [List.mem_cons, h1]), if_neg (by simp [h1])]
        exact ih hk1.2
      · rw [if_pos (by simp [List.mem_cons, fun he => hk1.1 he, h1]),
           if_pos (by simpa using h1)]
        rw [ih hk1.2]



theorem walk_from_mem (adj : AdjMap) :
    ∀ (mids : List String) (u goal x : String), isWalk adj u mids goal = true →
      x ∈ u :: mids →
      ∃ mids', isWalk adj x mids' goal = true ∧ x ∉ mids' ∧ ∀ y ∈ mids', y ∈ mids := by
  intro mids
  induction mids with
  | nil =>
      intro u goal x hw hx
      have : x = u := by simpa using hx
      subst this
      exact ⟨[], hw, by simp, by simp⟩
  | cons m ms ih =>
      intro u goal x hw hx
      simp only [isWalk, Bool.and_eq_true] at hw
      by_cases hxm : x ∈ m :: ms
      · rcases ih m goal x hw.2 hxm with ⟨mids', h1, h2, h3⟩
        exact ⟨mids', h1, h2, fun y hy => List.mem_cons_of_mem _ (h3 y hy)⟩
      · have : x = u := by
          rcases List.mem_cons.mp hx with h | h
          · exact h
          · exact absurd h hxm
        subst this
        refine ⟨m :: ms, ?_, hxm, fun y hy => hy⟩
        simp only [isWalk, Bool.and_eq_true]
        exact hw

theorem isWalk_mono (adj1 adj2 : AdjMap)
    (hsub : ∀ x y, hasEdge adj1 x y = true → hasEdge adj2 x y = true) :
    ∀ (mids : List String) (a b : String),
      isWalk adj1 a mids b = true → isWalk adj2 a mids b = true := by
  intro mids
  induction mids with
  | nil => intro a b h; exact hsub a b (by simpa [isWalk] using h)
  | cons m ms ih =>
      intro a b h
      simp only [isWalk, Bool.and_eq_true] at h ⊢
      exact ⟨hsub a m h.1, ih m b h.2⟩

theorem dfs_complete (adj : AdjMap) (goal : String) :
    ∀ (fuel : Nat) (stack visited : List String),
      dfsPotential adj stack visited < fuel →
      (∃ u ∈ stack, ∃ mids, isWalk adj u mids goal = true ∧ ∀ x ∈ u :: mids, x ∉ visited) →
      dfsStep adj goal fuel stack visited = true := by
  intro fuel
  induction fuel with
  | zero => intro stack visited hpot _; omega
  | succ f ih =>
      intro stack visited hpot hwit
      rcases hwit with ⟨u, hu, mids, hw, havoid⟩
      cases stack with
      | nil => cases hu
      | cons curr rest =>
          simp only [dfsStep]
          by_cases hv : curr ∈ visited
          · rw [if_pos hv]
            have hune : u ≠ curr := by
              intro he
              subst he
              exact havoid u (List.mem_cons_self _ _) hv
            refine ih rest visited ?_ ⟨u, ?_, mids, hw, havoid⟩
            · unfold dfsPotential at hpot ⊢
              simp only [List.length_cons] at hpot
              omega
            · rcases List.mem_cons.mp hu with h | h
              · exact absurd h hune
              · exact h
          · rw [if_neg hv]
            by_cases hgoal : goal ∈ mapGetD adj curr []
            · rw [if_pos hgoal]
            · rw [if_neg hgoal]
              apply ih
              · -- potential decreases
                unfold dfsPotential at hpot ⊢
                simp only [List.length_cons, List.length_append, List.length_reverse] at hpot ⊢
                by_cases hck : curr ∈ mapKeys adj
                · have := pot_sum_lt adj curr visited hck hv
                  omega
                · have heq := pot_sum_eq adj curr visited hck
                  have hlen : (mapGetD adj curr []).length = 0 := by
                    rw [mapGetD, mapGet_eq_none_of_not_mem adj curr hck]
                    rfl
                  rw [heq]
                  omega
              · -- witness survives
                by_cases hcm : curr ∈ u :: mids
                · rcases walk_from_mem adj mids u goal curr hw hcm with ⟨mids', h1, h2, h3⟩
                  cases mids' with
                  | nil =>
                      exfalso
                      apply hgoal
                      have : hasEdge adj curr goal = true := by simpa [isWalk] using h1
                      unfold hasEdge at this
                      simpa using this
                  | cons m ms =>
                      simp only [isWalk, Bool.and_eq_true] at h1
                      refine ⟨m, ?_, ms, h1.2, ?_⟩
                      · refine List.mem_append_left _ ?_
                        rw [List.mem_reverse]
                        have : hasEdge adj curr m = true := h1.1
                        unfold hasEdge at this
                        simpa using this
                      · intro x hx
                        have hxmids : x ∈ m :: ms := hx
                        have hxin : x ∈ mids := h3 x hxmids
                        have hxnotvis : x ∉ visited :=
                          havoid x (List.mem_cons_of_mem _ hxin)
                        intro hcv
                        rcases List.mem_cons.mp hcv with he | he
                        · subst he
                          exact h2 hxmids
                        · exact hxnotvis he
                · have hune : u ≠ curr := by
                    intro he
                    subst he
                    exact hcm (List.mem_cons_self _ _)
                  refine ⟨u, ?_, mids, hw, ?_⟩
                  · refine List.mem_append_right _ ?_
                    rcases List.mem_cons.mp hu with h | h
                    · exact absurd h hune
                    · exact h
                  · intro x hx
                    intro hcv
                    rcases List.mem_cons.mp hcv with he | he
                    · subst he
                      exact hcm hx
                    · exact havoid x hx he

theorem isReachable_complete (adj : AdjMap) (start goal : String) (mids : List String)
    (hw : isWalk adj start mids goal = true) : isReachable start goal adj = true := by
  unfold isReachable
  by_cases he : start = goal
  · rw [if_pos he]
  · rw [if_neg he]
    apply dfs_complete
    · unfold dfsPotential isReachableFuel
      rw [entries_filter_nil]
      simp only [List.length_singleton]
      omega
    · exact ⟨start, List.mem_cons_self _ _, mids, hw, fun x _ hx => (List.not_mem_nil x) hx⟩



theorem contains_filter_false (l : List String) (p : String → Bool) (B : String)
    (h : l.contains B = false) : (l.filter p).contains B = false := by
  cases hc : (l.filter p).contains B
  · rfl
  · exfalso
    have hm : B ∈ l.filter p := List.elem_iff.mp hc
    have hBl : B ∈ l := List.mem_of_mem_filter hm
    have hcB : l.contains B = true := List.elem_iff.mpr hBl
    rw [h] at hcB
    cases hcB

theorem contains_filter_ne_self (l : List String) (j : String) :
    (l.filter (· ≠ j)).contains j = false := by
  cases hc : (l.filter (· ≠ j)).contains j
  · rfl
  · exfalso
    have hm : j ∈ l.filter (· ≠ j) := List.elem_iff.mp hc
    have := List.of_mem_filter hm
    simp at this

theorem reduceEdgeStep_absent (S : List String) (A : String) (acc : AdjMap) (j B : String)
    (h : hasEdge acc A B = false) : hasEdge (reduceEdgeStep S A acc j) A B = false := by
  unfold reduceEdgeStep
  split
  · unfold hasEdge mapGetD
    rw [mapGet_mapSet_self]
    simp only [Option.getD_some]
    apply contains_filter_false
    unfold hasEdge at h
    exact h
  · exact h

theorem inner_fold_absent (S : List String) (A B : String) :
    ∀ (js : List String) (acc : AdjMap), hasEdge acc A B = false →
      hasEdge (js.foldl (reduceEdgeStep S A) acc) A B = false := by
  intro js
  induction js with
  | nil => intro acc h; exact h
  | cons j rest ih =>
      intro acc h
      simp only [List.foldl_cons]
      exact ih _ (reduceEdgeStep_absent S A acc j B h)

theorem inner_fold_sub (S : List String) (A : String) :
    ∀ (js : List String) (acc : AdjMap) (x y : String),
      hasEdge (js.foldl (reduceEdgeStep S A) acc) x y = true → hasEdge acc x y = true := by
  intro js acc x y
  refine foldl_edge_inv (fun x y => hasEdge acc x y = true) _ ?_ js acc (fun _ _ h => h) x y
  intro a j hinv x y h
  exact hinv x y (reduceEdgeStep_sub S A a j x y h)

theorem inner_fold_keep (S : List String) (A B : String) :
    ∀ (js : List String) (acc : AdjMap), B ∈ js →
      hasEdge (js.foldl (reduceEdgeStep S A) acc) A B = true →
      ∃ accB : AdjMap,
        (S.any (fun k => k ≠ B && isReachable k B accB)) = false ∧
        (∀ x y, hasEdge (js.foldl (reduceEdgeStep S A) acc) x y = true →
          hasEdge accB x y = true) := by
  intro js
  induction js with
  | nil => intro acc h; cases h
  | cons j rest ih =>
      intro acc hmem hedge
      simp only [List.foldl_cons] at hedge ⊢
      by_cases hjB : j = B
      · subst hjB
        by_cases hcheck : (S.any (fun k => k ≠ j && isReachable k j acc)) = true
        · -- the edge is removed here and stays removed: contradiction
          exfalso
          have hstep : reduceEdgeStep S A acc j =
              mapSet acc A ((mapGetD acc A []).filter (· ≠ j)) := by
            unfold reduceEdgeStep
            rw [if_pos hcheck]
          have habs : hasEdge (reduceEdgeStep S A acc j) A j = false := by
            rw [hstep]
            unfold hasEdge mapGetD
            rw [mapGet_mapSet_self]
            simp only [Option.getD_some]
            exact contains_filter_ne_self _ j
          have := inner_fold_absent S A j rest _ habs
          rw [this] at hedge
          cases hedge
        · -- the check returned false with the current accumulator
          have hcheckf : (S.any (fun k => k ≠ j && isReachable k j acc)) = false := by
            cases hc : (S.any (fun k => k ≠ j && isReachable k j acc))
            · rfl
            · exact absurd hc hcheck
          have hstep : reduceEdgeStep S A acc j = acc := by
            unfold reduceEdgeStep
            rw [if_neg (by rw [hcheckf]; exact Bool.false_ne_true)]
          refine ⟨acc, hcheckf, ?_⟩
          intro x y h
          rw [hstep] at h
          exact inner_fold_sub S A rest acc x y h
      · have hmem' : B ∈ rest := by
          rcases List.mem_cons.mp hmem with h | h
          · exact absurd h.symm hjB
          · exact h
        exact ih _ hmem' hedge

theorem reduction_fold_sub (ns : List String) (acc : AdjMap) :
    ∀ x y, hasEdge (ns.foldl reduceNode acc) x y = true → hasEdge acc x y = true := by
  intro x y
  refine foldl_edge_inv (fun x y => hasEdge acc x y = true) _ ?_ ns acc (fun _ _ h => h) x y
  intro a i hinv x y h
  exact hinv x y (reduceNode_sub a i x y h)

theorem reduction_no_redundant_core (nodes : List String) (adj : AdjMap)
    (A B k : String) (mids : List String) (hA : A ∈ nodes)
    (hedge : hasEdge (performTransitiveReduction nodes adj) A B = true)
    (hwalk : isWalk (performTransitiveReduction nodes adj) A (k :: mids) B = true)
    (hkB : k ≠ B) : False := by
  rcases List.append_of_mem hA with ⟨l1, l2, rfl⟩
  set init : AdjMap := (l1 ++ A :: l2).foldl
    (fun m n => mapSet m n (mapGetD adj n [])) mapEmpty with hinit
  have hsplit : performTransitiveReduction (l1 ++ A :: l2) adj =
      l2.foldl reduceNode (reduceNode (l1.foldl reduceNode init) A) := by
    unfold performTransitiveReduction
    rw [List.foldl_append, List.foldl_cons]
  set acc1 : AdjMap := l1.foldl reduceNode init with hacc1
  set S : List String := mapGetD acc1 A [] with hS
  have hrn : reduceNode acc1 A = S.foldl (reduceEdgeStep S A) acc1 := rfl
  -- edges of the final result survive in the state right after A was processed
  have hF2 : ∀ x y, hasEdge (performTransitiveReduction (l1 ++ A :: l2) adj) x y = true →
      hasEdge (reduceNode acc1 A) x y = true := by
    intro x y h
    rw [hsplit] at h
    exact reduction_fold_sub l2 _ x y h
  have hedge2 : hasEdge (reduceNode acc1 A) A B = true := hF2 A B hedge
  have hedgek : hasEdge (reduceNode acc1 A) A k = true := by
    apply hF2
    simp only [isWalk, Bool.and_eq_true] at hwalk
    exact hwalk.1
  have hBS : B ∈ S := by
    have : hasEdge acc1 A B = true := reduceNode_sub acc1 A A B hedge2
    unfold hasEdge at this
    rw [hS]
    simpa using this
  have hkS : k ∈ S := by
    have : hasEdge acc1 A k = true := reduceNode_sub acc1 A A k hedgek
    unfold hasEdge at this
    rw [hS]
    simpa using this
  rcases inner_fold_keep S A B S acc1 hBS (by rw [← hrn]; exact hedge2) with
    ⟨accB, hcheck, hsub⟩
  -- the walk k → … → B lives in accB
  have hwalkmids : isWalk (performTransitiveReduction (l1 ++ A :: l2) adj) k mids B = true := by
    simp only [isWalk, Bool.and_eq_true] at hwalk
    exact hwalk.2
  have hwB : isWalk accB k mids B = true := by
    refine isWalk_mono _ _ ?_ mids k B hwalkmids
    intro x y h
    refine hsub x y ?_
    rw [← hrn]
    exact hF2 x y h
  have hreach : isReachable k B accB = true := isReachable_complete accB k B mids hwB
  -- contradiction with the any-check being false
  have : (k ≠ B && isReachable k B accB) = true := by
    simp [hkB, hreach]
  have hany : (S.any (fun kk => kk ≠ B && isReachable kk B accB)) = true :=
    List.any_eq_true.mpr ⟨k, hkS, this⟩
  rw [hcheck] at hany
  cases hany



/-- C3: after performTransitiveReduction runs, no direct edge A→B coexists
with a simple path A→…→B of length at least 2 in the reduced adjacency (for
any processed node A); in particular, the chain adjacency A→B→C→D with
shortcut edges A→C, A→D, B→D reduces to exactly A→B, B→C, C→D. -/
theorem reduction_removes_redundant_edges :
    (∀ (nodes : List String) (adj : AdjMap) (A B k : String) (mids : List String),
      A ∈ nodes →
      ¬(hasEdge (performTransitiveReduction nodes adj) A B = true ∧
        isWalk (performTransitiveReduction nodes adj) A (k :: mids) B = true ∧
        (A :: k :: mids ++ [B]).Nodup)) ∧
    performTransitiveReduction ["A", "B", "C", "D"] chainAdj =
      [("A", ["B"]), ("B", ["C"]), ("C", ["D"]), ("D", [])] := by
  constructor
  · rintro nodes adj A B k mids hA ⟨hedge, hwalk, hnd⟩
    have hnd2 : (k :: (mids ++ [B])).Nodup := (List.nodup_cons.mp hnd).2
    have hknotin : k ∉ mids ++ [B] := (List.nodup_cons.mp hnd2).1
    have hkB : k ≠ B := by
      intro he
      subst he
      exact hknotin (List.mem_append_right _ (List.mem_singleton.mpr rfl))
    exact reduction_no_redundant_core nodes adj A B k mids hA hedge hwalk hkB
  · decide

/-- C3 witness: in the reduced chain there is no redundant direct edge from
A to D alongside the path A→B→C→D. -/
theorem reduction_removes_redundant_edges_witness :
    ¬(hasEdge (performTransitiveReduction ["A", "B", "C", "D"] chainAdj) "A" "D" = true ∧
      isWalk (performTransitiveReduction ["A", "B", "C", "D"] chainAdj) "A" ("B" :: ["C"]) "D" = true ∧
      ("A" :: "B" :: ["C"] ++ ["D"]).Nodup) :=
  reduction_removes_redundant_edges.1 ["A", "B", "C", "D"] chainAdj "A" "D" "B" ["C"]
    (by decide)

/-- C1 (counterexample): in the end-to-end scenario the opening-layer edges
give the path `1→H1→H2`, so transitive reduction removes the direct `1→H2`
edge; `H2`'s only remaining parent is `H1` and its rank is 2, not 1, and
only two links are emitted, not three. -/
theorem scenario_rank_and_link_count :
    mapGet (layoutRanks scenarioUnits scenarioRelations) "H2" = some 2 ∧ (2 : Nat) ≠ 1 ∧
    (calculateLayout scenarioUnits scenarioRelations 800 600).links.length = 2 ∧
    (2 : Nat) ≠ 3 ∧
    hasEdge (layoutAdj scenarioUnits scenarioRelations) "1" "H2" = false := by
  decide

/-- C1 (amended): on an 800×600 canvas the scenario yields rank(1)=0,
rank(H1)=1, rank(H2)=2; the direct `1→H2` edge is removed by transitive
reduction (the path `1→H1→H2` makes it redundant), so exactly two links are
emitted (`1→H1` as OVERLAYS and the CUTS link `H1→H2`); `H1`, being its
layer's single feature child, is centred on the canvas midline `x = 400`,
and `H2` is placed left of the midline. -/
theorem scenario_layout_amended :
    ((calculateLayout scenarioUnits scenarioRelations 800 600).nodes.map fun n =>
        (n.id, n.rank, qEqv n.x 400, qLt n.x 400)) =
      [("1", 0, true, false), ("H1", 1, true, false), ("H2", 2, false, true)] ∧
    ((calculateLayout scenarioUnits scenarioRelations 800 600).links.map fun l =>
        (l.id, l.source.id, l.target.id, l.type)) =
      [("1-H1", "1", "H1", RelationType.OVERLAYS), ("r1", "H1", "H2", RelationType.CUTS)] ∧
    (calculateLayout scenarioUnits scenarioRelations 800 600).layers = some 3 := by
  decide

/-- C2 (counterexample): on the 2-cycle `A→B→A` the retained edge `A→B`
violates rank monotonicity: rank(A)=2 but rank(B)=1 < rank(A)+1. -/
theorem cycle_rank_violation :
    hasEdge (layoutAdj cycleUnits cycleRelations) "A" "B" = true ∧
    mapGet (layoutRanks cycleUnits cycleRelations) "A" = some 2 ∧
    mapGet (layoutRanks cycleUnits cycleRelations) "B" = some 1 ∧
    ¬ (1 : Nat) ≥ 2 + 1 := by
  decide

/-- C4 (counterexample): for the two crossing polylines, the horizontal
segment's path is emitted as a straight line with no arc command at all —
the bridge is not placed on the horizontal segment. -/
theorem bridge_not_on_horizontal :
    (emitWithBridges crossingPolylines).getD 0 [] =
      [PathCmd.move 0 50, PathCmd.line 100 50] ∧
    ((emitWithBridges crossingPolylines).getD 0 []).all
      (fun c => match c with | PathCmd.arc _ _ _ _ => false | _ => true) = true := by
  decide

/-- C4 (amended): the crossing is recorded against the vertical segment, so
the engine leaves the horizontal path straight and emits the bridge on the
vertical segment, centred at y=50: line to y = 50 − radius, an arc of radius
`BRIDGE_RADIUS = 6`, then continue from y = 50 + radius. -/
theorem bridge_on_vertical_amended :
    emitWithBridges crossingPolylines =
      [[PathCmd.move 0 50, PathCmd.line 100 50],
       [PathCmd.move 50 0, PathCmd.line 50 44, PathCmd.arc ⟨12, 2⟩ ⟨12, 2⟩ 50 56,
        PathCmd.line 50 100]] ∧
    qEqv (⟨12, 2⟩ : Q) BRIDGE_RADIUS = true ∧
    qEqv 44 (50 - BRIDGE_RADIUS) = true ∧ qEqv 56 (50 + BRIDGE_RADIUS) = true := by
  decide

/-- C6: with LAYER units "1","2","2a","3" and no explicit relations, the
graph builder produces exactly the chain `1→2`, `2→2a`, `2a→3`, because the
layer sort key orders "2" before "2a" before "3". -/
theorem layer_chain_edges :
    buildAdjacency layerChainUnits [] =
      [("1", ["2"]), ("2", ["2a"]), ("2a", ["3"])] ∧
    getLayerSortValue "2" < getLayerSortValue "2a" ∧
    getLayerSortValue "2a" < getLayerSortValue "3" := by
  decide

/-- C7 (counterexample): a side-bracket link with no offsets entry gets
controlPoint `min(stub xs) − 20 = 30`, not the stub midpoint 50: both stub
endpoints sit at x = 50 yet the control point is 30. -/
theorem sidebracket_controlPoint_not_midpoint :
    chosenSides (linkMeanX bracketNodes) bracketPorts bracketLink = (Side.left, Side.left) ∧
    ((calculateRoutes bracketNodes [bracketLink] mapEmpty bracketPorts).map fun r =>
        (r.routeType, qEqv r.controlPoint 30)) = [(RouteType.SideBracket, true)] ∧
    qEqv (stubPoint (anchorPoint bracketLink.source Side.left) Side.left).x 50 = true ∧
    qEqv (stubPoint (anchorPoint bracketLink.target Side.left) Side.left).x 50 = true ∧
    qEqv 30 ((50 + 50) / 2) = false ∧
    mapHas (mapEmpty : JsMap String Q) bracketLink.id = false := by
  decide

/-- C8: the pipeline is a pure function — two invocations on equal unit and
relation lists, canvas size and override maps return equal node
coordinates, ranks and route outputs. -/
theorem pipeline_deterministic
    (units units' : List ArchaeologicalUnit) (relations relations' : List StratigraphicRelation)
    (w w' h h' : Q) (offsets offsets' : JsMap String Q)
    (ports ports' : JsMap String LinkPortConfig)
    (hu : units = units') (hr : relations = relations') (hw : w = w') (hh : h = h')
    (ho : offsets = offsets') (hp : ports = ports') :
    calculateLayout units relations w h = calculateLayout units' relations' w' h' ∧
    calculateRoutes (calculateLayout units relations w h).nodes
        (calculateLayout units relations w h).links offsets ports =
      calculateRoutes (calculateLayout units' relations' w' h').nodes
        (calculateLayout units' relations' w' h').links offsets' ports' := by
  subst hu hr hw hh ho hp
  exact ⟨rfl, rfl⟩

/-- C8 witness at the scenario input. -/
theorem pipeline_deterministic_witness :
    calculateLayout scenarioUnits scenarioRelations 800 600 =
      calculateLayout scenarioUnits scenarioRelations 800 600 ∧
    calculateRoutes (calculateLayout scenarioUnits scenarioRelations 800 600).nodes
        (calculateLayout scenarioUnits scenarioRelations 800 600).links mapEmpty mapEmpty =
      calculateRoutes (calculateLayout scenarioUnits scenarioRelations 800 600).nodes
        (calculateLayout scenarioUnits scenarioRelations 800 600).links mapEmpty mapEmpty :=
  pipeline_deterministic scenarioUnits scenarioUnits scenarioRelations scenarioRelations
    800 800 600 600 mapEmpty mapEmpty mapEmpty mapEmpty rfl rfl rfl rfl rfl rfl

/-- Any link produced by one `buildLinksStep` call is either carried over
from the accumulator or has its type determined by its source node. -/
theorem buildLinksStep_mem (nm : JsMap String GraphNode)
    (relations : List StratigraphicRelation) (acc : List GraphLink)
    (kl : String × List String) (l : GraphLink)
    (h : l ∈ buildLinksStep nm relations acc kl) :
    l ∈ acc ∨ l.type = (if l.source.type = UnitType.LAYER then RelationType.OVERLAYS
        else RelationType.CUTS) := by
  unfold buildLinksStep at h
  cases hs : mapGet nm kl.1 with
  | none => rw [hs] at h; exact Or.inl h
  | some source =>
      rw [hs] at h
      rcases List.mem_append.mp h with h1 | h2
      · exact Or.inl h1
      · right
        rcases List.mem_filterMap.mp h2 with ⟨tid, _, hf⟩
        cases ht : mapGet nm tid with
        | none => rw [ht] at hf; exact absurd hf (by simp)
        | some target =>
            rw [ht] at hf
            simp only [Option.some.injEq] at hf
            subst hf
            by_cases hl : source.type = UnitType.LAYER <;> simp [hl]

theorem buildLinks_foldl_type (nm : JsMap String GraphNode)
    (relations : List StratigraphicRelation) :
    ∀ (adj : AdjMap) (acc : List GraphLink),
      (∀ l ∈ acc, l.type = (if l.source.type = UnitType.LAYER then RelationType.OVERLAYS
          else RelationType.CUTS)) →
      ∀ l ∈ adj.foldl (buildLinksStep nm relations) acc,
        l.type = (if l.source.type = UnitType.LAYER then RelationType.OVERLAYS
            else RelationType.CUTS) := by
  intro adj
  induction adj with
  | nil => intro acc hacc l hl; exact hacc l hl
  | cons kl rest ih =>
      intro acc hacc l hl
      rw [List.foldl_cons] at hl
      refine ih _ ?_ l hl
      intro l' hl'
      rcases buildLinksStep_mem nm relations acc kl l' hl' with h | h
      · exact hacc l' h
      · exact h

/-- C9: every GraphLink emitted by calculateLayout has type OVERLAYS when
its source node is LAYER-type and type CUTS otherwise, regardless of the
type of the original input relation; in particular a SAME_AS or PART_OF
relation between two non-LAYER units is emitted as a CUTS link. -/
theorem link_type_matches_source (units : List ArchaeologicalUnit)
    (relations : List StratigraphicRelation) (w h : Q) :
    ∀ l ∈ (calculateLayout units relations w h).links,
      l.type = (if l.source.type = UnitType.LAYER then RelationType.OVERLAYS
          else RelationType.CUTS) := by
  intro l hl
  have hl' : l ∈ (layoutAdj units relations).foldl
      (buildLinksStep (layoutFinalNodeMap units relations w) relations) [] := hl
  exact buildLinks_foldl_type _ relations _ [] (by intro x hx; cases hx) l hl'

/-- C9 witness: the first link of the scenario layout. -/
theorem link_type_matches_source_witness :
    ((calculateLayout scenarioUnits scenarioRelations 800 600).links.getD 0 defaultLink).type =
      (if ((calculateLayout scenarioUnits scenarioRelations 800 600).links.getD 0
            defaultLink).source.type = UnitType.LAYER then RelationType.OVERLAYS
       else RelationType.CUTS) :=
  link_type_matches_source scenarioUnits scenarioRelations 800 600 _ (by decide)

/-- Length of the emitted path list equals the number of polylines. -/
theorem emitWithBridges_length (polylines : List (List Point)) :
    (emitWithBridges polylines).length = polylines.length := by
  unfold emitWithBridges
  simp [List.enum_length]

theorem calculateRoutes_length (nodes : List GraphNode) (links : List GraphLink)
    (offsets : JsMap String Q) (ports : JsMap String LinkPortConfig) :
    (calculateRoutes nodes links offsets ports).length = links.length := by
  unfold calculateRoutes
  simp [List.length_zip, emitWithBridges_length]

theorem calculateRoutes_meta (nodes : List GraphNode) (links : List GraphLink)
    (offsets : JsMap String Q) (ports : JsMap String LinkPortConfig)
    (i : Nat) (hi : i < links.length) :
    ((calculateRoutes nodes links offsets ports).getD i defaultRoute).routeType =
      (routeLink (linkMeanX nodes) offsets ports (links.getD i defaultLink)).2.1 ∧
    ((calculateRoutes nodes links offsets ports).getD i defaultRoute).controlPoint =
      (routeLink (linkMeanX nodes) offsets ports (links.getD i defaultLink)).2.2 := by
  have h1 : i < (calculateRoutes nodes links offsets ports).length := by
    rw [calculateRoutes_length]; exact hi
  rw [List.getD_eq_getElem _ _ h1, List.getD_eq_getElem _ _ hi]
  unfold calculateRoutes at h1 ⊢
  simp only [List.getElem_map, List.getElem_zip]
  exact ⟨trivial, trivial⟩

theorem routeLink_meta (m : Q) (offsets : JsMap String Q)
    (ports : JsMap String LinkPortConfig) (link : GraphLink) :
    (routeLink m offsets ports link).2 =
      (let sides := chosenSides m ports link
       let exitPt := stubPoint (anchorPoint link.source sides.1) sides.1
       let entryPt := stubPoint (anchorPoint link.target sides.2) sides.2
       if isVerticalSide sides.1 && isVerticalSide sides.2 then
         (RouteType.VerticalStack,
          if mapHas offsets link.id then mapGetD offsets link.id 0
          else (exitPt.y + entryPt.y) / 2)
       else if !isVerticalSide sides.1 && !isVerticalSide sides.2 then
         (RouteType.SideBracket,
          if mapHas offsets link.id then mapGetD offsets link.id 0
          else if sides.1 = Side.left then qMin exitPt.x entryPt.x - 20
          else qMax exitPt.x entryPt.x + 20)
       else (RouteType.Mixed, 0)) := by
  unfold routeLink
  dsimp only
  split
  · rfl
  · split
    · rfl
    · split <;> rfl

/-- C7 (amended): for every link routed by calculateRoutes, a VerticalStack
route's controlPoint is the midpoint of the two stub endpoints' y
coordinates unless an offsets entry for the link id overrides it, while a
SideBracket route's controlPoint defaults to min(stub xs) − 20 when the
source exits left and max(stub xs) + 20 otherwise, again overridden by an
offsets entry when present. -/
theorem controlPoint_spec (nodes : List GraphNode) (links : List GraphLink)
    (offsets : JsMap String Q) (ports : JsMap String LinkPortConfig)
    (i : Nat) (hi : i < links.length) :
    ((((calculateRoutes nodes links offsets ports).getD i defaultRoute).routeType =
        RouteType.VerticalStack →
      ((calculateRoutes nodes links offsets ports).getD i defaultRoute).controlPoint =
        (if mapHas offsets (links.getD i defaultLink).id then
          mapGetD offsets (links.getD i defaultLink).id 0
        else
          ((stubPoint (anchorPoint (links.getD i defaultLink).source
              (chosenSides (linkMeanX nodes) ports (links.getD i defaultLink)).1)
              (chosenSides (linkMeanX nodes) ports (links.getD i defaultLink)).1).y +
           (stubPoint (anchorPoint (links.getD i defaultLink).target
              (chosenSides (linkMeanX nodes) ports (links.getD i defaultLink)).2)
              (chosenSides (linkMeanX nodes) ports (links.getD i defaultLink)).2).y) / 2)) ∧
     (((calculateRoutes nodes links offsets ports).getD i defaultRoute).routeType =
        RouteType.SideBracket →
      ((calculateRoutes nodes links offsets ports).getD i defaultRoute).controlPoint =
        (if mapHas offsets (links.getD i defaultLink).id then
          mapGetD offsets (links.getD i defaultLink).id 0
        else if (chosenSides (linkMeanX nodes) ports (links.getD i defaultLink)).1 = Side.left then
          qMin (stubPoint (anchorPoint (links.getD i defaultLink).source
              (chosenSides (linkMeanX nodes) ports (links.getD i defaultLink)).1)
              (chosenSides (linkMeanX nodes) ports (links.getD i defaultLink)).1).x
            (stubPoint (anchorPoint (links.getD i defaultLink).target
              (chosenSides (linkMeanX nodes) ports (links.getD i defaultLink)).2)
              (chosenSides (linkMeanX nodes) ports (links.getD i defaultLink)).2).x - 20
        else
          qMax (stubPoint (anchorPoint (links.getD i defaultLink).source
              (chosenSides (linkMeanX nodes) ports (links.getD i defaultLink)).1)
              (chosenSides (linkMeanX nodes) ports (links.getD i defaultLink)).1).x
            (stubPoint (anchorPoint (links.getD i defaultLink).target
              (chosenSides (linkMeanX nodes) ports (links.getD i defaultLink)).2)
              (chosenSides (linkMeanX nodes) ports (links.getD i defaultLink)).2).x + 20))) := by
  obtain ⟨hrt, hcp⟩ := calculateRoutes_meta nodes links offsets ports i hi
  have hm := routeLink_meta (linkMeanX nodes) offsets ports (links.getD i defaultLink)
  dsimp only at hm
  split at hm
  · constructor
    · intro _
      rw [hcp, hm]
    · intro hsb
      rw [hrt, hm] at hsb
      exact absurd hsb (by simp)
  · split at hm
    · constructor
      · intro hvs
        rw [hrt, hm] at hvs
        exact absurd hvs (by simp)
      · intro _
        rw [hcp, hm]
    · constructor
      · intro hvs
        rw [hrt, hm] at hvs
        exact absurd hvs (by simp)
      · intro hsb
        rw [hrt, hm] at hsb
        exact absurd hsb (by simp)

/-- C7 witness: the side-bracket scenario link at index 0. -/
theorem controlPoint_spec_witness :
    ((((calculateRoutes bracketNodes [bracketLink] mapEmpty bracketPorts).getD 0 defaultRoute).routeType =
        RouteType.VerticalStack →
      ((calculateRoutes bracketNodes [bracketLink] mapEmpty bracketPorts).getD 0 defaultRoute).controlPoint =
        (if mapHas (mapEmpty : JsMap String Q) ([bracketLink].getD 0 defaultLink).id then
          mapGetD (mapEmpty : JsMap String Q) ([bracketLink].getD 0 defaultLink).id 0
        else
          ((stubPoint (anchorPoint ([bracketLink].getD 0 defaultLink).source
              (chosenSides (linkMeanX bracketNodes) bracketPorts ([bracketLink].getD 0 defaultLink)).1)
              (chosenSides (linkMeanX bracketNodes) bracketPorts ([bracketLink].getD 0 defaultLink)).1).y +
           (stubPoint (anchorPoint ([bracketLink].getD 0 defaultLink).target
              (chosenSides (linkMeanX bracketNodes) bracketPorts ([bracketLink].getD 0 defaultLink)).2)
              (chosenSides (linkMeanX bracketNodes) bracketPorts ([bracketLink].getD 0 defaultLink)).2).y) / 2)) ∧
     (((calculateRoutes bracketNodes [bracketLink] mapEmpty bracketPorts).getD 0 defaultRoute).routeType =
        RouteType.SideBracket →
      ((calculateRoutes bracketNodes [bracketLink] mapEmpty bracketPorts).getD 0 defaultRoute).controlPoint =
        (if mapHas (mapEmpty : JsMap String Q) ([bracketLink].getD 0 defaultLink).id then
          mapGetD (mapEmpty : JsMap String Q) ([bracketLink].getD 0 defaultLink).id 0
        else if (chosenSides (linkMeanX bracketNodes) bracketPorts ([bracketLink].getD 0 defaultLink)).1 = Side.left then
          qMin (stubPoint (anchorPoint ([bracketLink].getD 0 defaultLink).source
              (chosenSides (linkMeanX bracketNodes) bracketPorts ([bracketLink].getD 0 defaultLink)).1)
              (chosenSides (linkMeanX bracketNodes) bracketPorts ([bracketLink].getD 0 defaultLink)).1).x
            (stubPoint (anchorPoint ([bracketLink].getD 0 defaultLink).target
              (chosenSides (linkMeanX bracketNodes) bracketPorts ([bracketLink].getD 0 defaultLink)).2)
              (chosenSides (linkMeanX bracketNodes) bracketPorts ([bracketLink].getD 0 defaultLink)).2).x - 20
        else
          qMax (stubPoint (anchorPoint ([bracketLink].getD 0 defaultLink).source
              (chosenSides (linkMeanX bracketNodes) bracketPorts ([bracketLink].getD 0 defaultLink)).1)
              (chosenSides (linkMeanX bracketNodes) bracketPorts ([bracketLink].getD 0 defaultLink)).1).x
            (stubPoint (anchorPoint ([bracketLink].getD 0 defaultLink).target
              (chosenSides (linkMeanX bracketNodes) bracketPorts ([bracketLink].getD 0 defaultLink)).2)
              (chosenSides (linkMeanX bracketNodes) bracketPorts ([bracketLink].getD 0 defaultLink)).2).x + 20))) :=
  controlPoint_spec bracketNodes [bracketLink] mapEmpty bracketPorts 0 (by decide)

/-- C10: an empty unit list yields empty node and link lists without
failure, and the returned `layers` value is the `-Infinity` produced by
`Math.max()` over no ranks (modelled `none`) plus one — not a non-negative
integer tier count. -/
theorem empty_units_layout (relations : List StratigraphicRelation) (w h : Q) :
    calculateLayout [] relations w h = ⟨[], [], none⟩ ∧
    ∀ n : Nat, (calculateLayout [] relations w h).layers ≠ some (qOfNat n) := by
  refine ⟨rfl, fun n h => ?_⟩
  exact Option.noConfusion (show (none : Option Q) = some (qOfNat n) from h)

end GraphLayout
